import Mathlib

/-!
# Verification of the neurowriter subword tokenizer subsystem

Shallow embedding of `src/neurowriter/tokenizer.py` (classes `CharTokenizer`,
`WordTokenizer`, `SubwordTokenizer`, `BPETokenizer`, `SubwordsListTokenizer`)
and proofs of the specified properties.

Python sets of symbols are modelled as duplicate-free `List String` values
built exclusively through `setInsert`/`setUnion`/`List.filter`, so that
`List.length` agrees with Python's `len(set)`.  Python's `defaultdict(int)`
pair-frequency table is modelled as an insertion-ordered association list
`Freqs`, matching CPython's dictionary iteration order (insertion order),
which is what `max(freqs, key=freqs.get)` iterates over.

The `LinkedList` class lives in `neurowriter/linkedlist.py`, which is not part
of the sources under verification; its behaviour is modelled from the spec
(§3 "Node", §4.1 "Mutable Symbol Sequence"): a document is an ordered sequence
of symbols, `mergewithnext` replaces a node and its successor by a single node
holding the concatenated symbol while relinking neighbours, and iteration
during mutation continues from the merged node's new successor.  Documents are
therefore embedded as plain `List String` values and the mutating iteration of
`BPETokenizer.mergesymbols` as a structural left-to-right scan (`mergeScan`).
-/

/-- Models Python's `\w` character class test used by `re.match("\\w", s)`:
alphanumeric or underscore. -/
def isWordChar (c : Char) : Bool := c.isAlphanum || c = '_'

/-- `re.match("\\w", s)` succeeds iff `s` is nonempty and its first character
is a word character. -/
def wordStart (s : String) : Bool :=
  match s.data with
  | [] => false
  | c :: _ => isWordChar c

/-- `BPETokenizer.validpair` (tokenizer.py:171-183): a pair of symbols may be
joined if `crosswords` is active, or both are composite, or both are valid
word symbols. -/
def validpair (cw : Bool) (s1 s2 : String) : Bool :=
  if cw || (decide (1 < s1.length) && decide (1 < s2.length)) then true
  else (decide (1 < s1.length) || wordStart s1) &&
       (decide (1 < s2.length) || wordStart s2)

abbrev Pair := String × String

/-- The pair-frequency table: an insertion-ordered association list modelling
Python's `collections.defaultdict(int)`. -/
abbrev Freqs := List (Pair × Int)

/-- Dictionary lookup with the `defaultdict(int)` default of `0`. -/
def lookupD : Freqs → Pair → Int
  | [], _ => 0
  | e :: rest, p => if e.1 = p then e.2 else lookupD rest p

/-- `freqs[p] += d` on a `defaultdict(int)`: updates the entry in place if the
key is present, otherwise appends a fresh entry (CPython dicts keep insertion
order). -/
def bump : Freqs → Pair → Int → Freqs
  | [], p, d => [(p, d)]
  | e :: rest, p, d => if e.1 = p then (p, e.2 + d) :: rest else e :: bump rest p d

/-- `del freqs[p]`. -/
def eraseKey (f : Freqs) (p : Pair) : Freqs :=
  f.filter (fun e => !decide (e.1 = p))

/-- One step of Python's `max(freqs, key=freqs.get)`: keep the incumbent
unless the new entry is strictly larger (so the first maximal entry in
iteration order wins, as in CPython). -/
def argmaxGo : Option (Pair × Int) → Freqs → Option (Pair × Int)
  | acc, [] => acc
  | none, e :: rest => argmaxGo (some e) rest
  | some b, e :: rest => argmaxGo (some (if b.2 < e.2 then e else b)) rest

/-- `max(freqs, key=freqs.get)` (tokenizer.py:261); `none` models the
`ValueError` raised by `max` on an empty table. -/
def argmaxKey (f : Freqs) : Option Pair := (argmaxGo none f).map Prod.fst

/-- The ordered list of adjacent symbol pairs of one document, as visited by
`for node in doc.iternodes()` with `node.nxt`. -/
def adjPairs : List String → List Pair
  | [] => []
  | [_] => []
  | x :: y :: rest => (x, y) :: adjPairs (y :: rest)

/-- Number of occurrences of a pair in a list of pairs. -/
def cntP (q : Pair) : List Pair → Nat
  | [] => 0
  | e :: t => (if e = q then 1 else 0) + cntP q t

/-- True number of adjacent occurrences of pair `q` across a corpus of
documents. -/
def trueCount (q : Pair) : List (List String) → Nat
  | [] => 0
  | d :: ds => cntP q (adjPairs d) + trueCount q ds

/-- Inner loop of `BPETokenizer.pairfreqs`: count each valid adjacent pair. -/
def pairAddList (cw : Bool) : Freqs → List Pair → Freqs
  | f, [] => f
  | f, q :: t => pairAddList cw (if validpair cw q.1 q.2 then bump f q 1 else f) t

def pairfreqsGo (cw : Bool) : Freqs → List (List String) → Freqs
  | f, [] => f
  | f, d :: ds => pairfreqsGo cw (pairAddList cw f (adjPairs d)) ds

/-- `BPETokenizer.pairfreqs` (tokenizer.py:185-197). -/
def pairfreqs (cw : Bool) (corpus : List (List String)) : Freqs :=
  pairfreqsGo cw [] corpus

/-- Frequency updates against the previous neighbour after a merge
(tokenizer.py:223-226). -/
def prevBump (cw : Bool) (l r : String) (prev : Option String) (f : Freqs) : Freqs :=
  match prev with
  | some p =>
      if validpair cw p (l ++ r) then bump (bump f (p, l ++ r) 1) (p, l) (-1) else f
  | none => f

/-- Frequency updates against the next neighbour after a merge
(tokenizer.py:228-231); note the source passes the neighbour first to
`validpair` for this side. -/
def nextBump (cw : Bool) (l r : String) (f : Freqs) : Option String → Freqs
  | some nx =>
      if validpair cw nx (l ++ r) then bump (bump f (l ++ r, nx) 1) (r, nx) (-1) else f
  | none => f

/-- The mutating per-document loop of `BPETokenizer.mergesymbols`
(tokenizer.py:218-231), with the document as a list and the previous node
tracked explicitly.  After `mergewithnext` the iteration continues from the
merged node's new successor. -/
def mergeScan (cw : Bool) (l r : String) :
    Option String → List String → Freqs → List String × Freqs
  | _, [], f => ([], f)
  | _, [x], f => ([x], f)
  | prev, x :: y :: rest, f =>
    if x = l ∧ y = r then
      let f2 := nextBump cw l r (prevBump cw l r prev f) rest.head?
      let res := mergeScan cw l r (some (l ++ r)) rest f2
      ((l ++ r) :: res.1, res.2)
    else
      let res := mergeScan cw l r (some x) (y :: rest) f
      (x :: res.1, res.2)

/-- The loop over documents in `BPETokenizer.mergesymbols`. -/
def mergeCorpus (cw : Bool) (l r : String) :
    List (List String) → Freqs → List (List String) × Freqs
  | [], f => ([], f)
  | d :: ds, f =>
    let resd := mergeScan cw l r none d f
    let rest := mergeCorpus cw l r ds resd.2
    (resd.1 :: rest.1, rest.2)

/-- Insert into a Python-set model: no-op when present, append otherwise. -/
def setInsert (s : List String) (x : String) : List String :=
  if x ∈ s then s else s ++ [x]

/-- Python `set.update` / union. -/
def setUnion (s : List String) (xs : List String) : List String :=
  xs.foldl setInsert s

/-- `BPETokenizer.mergesymbols` (tokenizer.py:199-236): add the new symbol,
merge all occurrences updating frequencies incrementally, delete the merged
pair's entry.  Returns `(corpus, freqs, symbols)` as the source does. -/
def mergesymbols (cw : Bool) (corpus : List (List String)) (symbols : List String)
    (f : Freqs) (l r : String) : List (List String) × Freqs × List String :=
  let symbols' := setInsert symbols (l ++ r)
  let res := mergeCorpus cw l r corpus f
  (res.1, eraseKey res.2 (l, r), symbols')

/-- Number of occurrences of symbol `s` across the merged corpus, as counted
by `BPETokenizer.prunesymbols`. -/
def symCount (corpus : List (List String)) (s : String) : Nat :=
  (corpus.map (fun d => d.count s)).sum

/-- `BPETokenizer.prunesymbols` (tokenizer.py:238-255): drop multi-character
symbols that have become infrequent; single-character symbols are kept. -/
def prunesymbols (mf : Int) (corpus : List (List String)) (symbols : List String) :
    List String :=
  symbols.filter (fun s => decide (s.length = 1) || decide (mf ≤ (symCount corpus s : Int)))

/-- `BPETokenizer.mergingrun` (tokenizer.py:257-273).  `fuel` bounds the
iterations of the Python `while` loop (every run of the source terminates, so
a sufficiently large fuel is supplied by callers); `none` models the
`ValueError` of `max` on an empty table. -/
def mergingrun (n : Nat) (mf : Int) (cw : Bool) :
    Nat → List (List String) → Freqs → List String →
    Option (List (List String) × Freqs × List String)
  | 0, _, _, _ => none
  | fuel + 1, corpus, f, symbols =>
    if symbols.length < n then
      match argmaxKey f with
      | none => none
      | some (l, r) =>
        if lookupD f (l, r) < mf then some (corpus, f, symbols)
        else
          let res := mergesymbols cw corpus symbols f l r
          mergingrun n mf cw fuel res.1 res.2.1 res.2.2
    else some (corpus, f, symbols)

/-- A raw document string as the initial symbol sequence: one single-character
symbol per character (`LinkedList(doc)` over a Python string). -/
def toDoc (d : String) : List String := d.data.map (fun c => String.singleton c)

/-- `set(chain(*docs))`: the set of symbols occurring in the (listed)
documents, in first-occurrence order. -/
def charSyms (docs : List (List String)) : List String :=
  docs.flatten.foldl setInsert []

def corpusSize (corpus : List (List String)) : Nat :=
  (corpus.map List.length).sum

/-- The merge/prune convergence loop of `BPETokenizer.fit`
(tokenizer.py:283-293). -/
def bpeFitLoop (n : Nat) (mf : Int) (cw : Bool) :
    Nat → List (List String) → Freqs → List String → Option (List String)
  | 0, _, _, _ => none
  | fuel + 1, corpus, f, symbols =>
    match mergingrun n mf cw (3 * corpusSize corpus + f.length + n + 2) corpus f symbols with
    | none => none
    | some (c', f', s') =>
      let s'' := prunesymbols mf c' s'
      if s'.length = s''.length then some s''
      else bpeFitLoop n mf cw fuel c' f' s''

/-- `BPETokenizer.fit` (tokenizer.py:275-295), returning the learned Symbol
Set; `none` models an uncaught Python exception. -/
def bpeFit (n : Nat) (mf : Int) (cw : Bool) (corpus : List String) :
    Option (List String) :=
  let docs := corpus.map toDoc
  let symbols := charSyms docs
  let f := pairfreqs cw docs
  bpeFitLoop n mf cw (symbols.length + 3 * corpusSize docs + n + 2) docs f symbols

/-! ## Longest-match compiler and matcher (`SubwordTokenizer`) -/

/-- Stable insertion of one element under a `Bool`-valued "comes before or
equal" relation. -/
def insBy (le : α → α → Bool) (x : α) : List α → List α
  | [] => [x]
  | y :: t => if le x y then x :: y :: t else y :: insBy le x t

/-- Stable insertion sort, modelling Python's stable `sorted`. -/
def sortBy (le : α → α → Bool) : List α → List α
  | [] => []
  | x :: t => insBy le x (sortBy le t)

/-- `SubwordTokenizer.compile` (tokenizer.py:119-126): sort the symbols by
length, longest first, so that the compiled alternation gives precedence to
larger symbols.  Python sorts an (arbitrarily ordered) set; here the symbol
set's list order stands in for the set order, and `transform_order_invariance`
below shows the matcher's behaviour does not depend on it. -/
def compile (symbols : List String) : List String :=
  sortBy (fun a b => decide (b.length ≤ a.length)) symbols

/-- `SubwordTokenizer.bestmatch` (tokenizer.py:105-117) on a compiled
detector: the first symbol of the alternation matching a prefix of the
remaining text (Python regex alternation is leftmost-first). -/
def bestmatch (det : List String) (cs : List Char) : Option String :=
  det.find? (fun s => s.data.isPrefixOf cs)

/-- The scanning loop of `SubwordTokenizer.transform` (tokenizer.py:131-138),
with a structural-recursion fuel that callers instantiate with the text
length (every match of nonzero length consumes at least one character, so the
fuel never runs out on the paths the source can take).
`none` at a failed match models the `TypeError` raised by `len(None)` when
`bestmatch` returns `None`; `none` at a zero-length match models the
non-terminating loop the source would enter (`i += 0`). -/
def transformGoF (det : List String) : Nat → List Char → Option (List String)
  | _, [] => some []
  | 0, _ :: _ => none
  | fuel + 1, c :: cs' =>
    match bestmatch det (c :: cs') with
    | none => none
    | some s =>
      if s.length = 0 then none
      else (transformGoF det fuel ((c :: cs').drop s.length)).map (fun out => s :: out)

def transformGo (det : List String) (cs : List Char) : Option (List String) :=
  transformGoF det cs.length cs

/-- `SubwordTokenizer.transform` on a compiled detector. -/
def swTransform (det : List String) (text : String) : Option (List String) :=
  transformGo det text.data

/-- Concatenation of the emitted tokens. -/
def joinSyms (l : List String) : String := l.foldr (· ++ ·) ""

/-- The scan of `SubwordTokenizer.transform` reaches `rest` (the text from
position `i` on) starting from `cs`. -/
inductive ScanReaches (det : List String) : List Char → List Char → Prop
  | refl (cs : List Char) : ScanReaches det cs cs
  | step {cs rest : List Char} (s : String) :
      bestmatch det cs = some s → s.length ≠ 0 →
      ScanReaches det (cs.drop s.length) rest → ScanReaches det cs rest

/-- `SubwordTokenizer.transform` including the not-trained check performed by
`bestmatch` (tokenizer.py:108-112): with `symbols is None` the first
`bestmatch` call raises `ValueError("Tokenizer has not been fitted")` — but
only if the loop body runs at all. -/
def stTransform (symbols : Option (List String)) (text : String) :
    Except String (List String) :=
  match text.data with
  | [] => Except.ok []
  | c :: cs' =>
    match symbols with
    | none => Except.error "Tokenizer has not been fitted"
    | some syms =>
      match transformGo (compile syms) (c :: cs') with
      | some out => Except.ok out
      | none => Except.error "TypeError"

/-- `SubwordsListTokenizer.fit` (tokenizer.py:305-312): corpus characters
union the fixed subword list. -/
def swlFit (subwords : List String) (corpus : List String) : List String :=
  setUnion (charSyms (corpus.map toDoc)) subwords

/-! ## Word tokenizer (`WordTokenizer`) -/

/-- `re.compile('(\\W)').split(doc)`: split at every non-word character,
keeping each separator as its own token (consecutive separators produce empty
tokens, as CPython does). -/
def wsplit : List Char → List String
  | [] => [""]
  | c :: rest =>
    match wsplit rest with
    | [] => []
    | t :: ts =>
      if isWordChar c then (String.singleton c ++ t) :: ts
      else "" :: String.singleton c :: t :: ts

/-- One `Counter` update, insertion-ordered like CPython. -/
def bumpCount : List (String × Nat) → String → List (String × Nat)
  | [], t => [(t, 1)]
  | e :: rest, t => if e.1 = t then (t, e.2 + 1) :: rest else e :: bumpCount rest t

/-- `collections.Counter` over a token stream. -/
def counts (ts : List String) : List (String × Nat) := ts.foldl bumpCount []

/-- Python's `xs[0:k]` for an `int` bound `k`, including the negative-bound
behaviour (`stop = max(0, len(xs) + k)`). -/
def pyTake (xs : List α) (k : Int) : List α :=
  if 0 ≤ k then xs.take k.toNat else xs.take ((xs.length : Int) + k).toNat

/-- `WordTokenizer.fit` (tokenizer.py:55-71). -/
def wordFit (n : Nat) (mf : Int) (corpus : List String) : List String :=
  let symbols := charSyms (corpus.map toDoc)
  let tokens := counts ((corpus.map (fun d => wsplit d.data)).flatten)
  let freqsymbols := tokens.filter (fun e => decide (mf ≤ (e.2 : Int)))
  let srt := sortBy (fun a b => decide (b.2 ≤ a.2)) freqsymbols
  let remain := (srt.map Prod.fst).filter (fun s => !decide (s ∈ symbols))
  let freespace : Int := (n : Int) - (symbols.length : Int)
  setUnion symbols (pyTake remain freespace)

/-! ## Tokenizer equality (`__eq__` methods) -/

inductive TokKind | char | word | bpe | swl
deriving DecidableEq

/-- The three equality families induced by the `isinstance` checks: the two
concrete subword tokenizers share `SubwordTokenizer.__eq__`. -/
inductive TokFam | fChar | fWord | fSub
deriving DecidableEq

def fam : TokKind → TokFam
  | .char => .fChar
  | .word => .fWord
  | .bpe => .fSub
  | .swl => .fSub

/-- A tokenizer instance for the purpose of `==`: its class and its Symbol
Set (`none` when untrained; `CharTokenizer` has no symbols attribute and its
field is ignored). -/
structure Tok where
  kind : TokKind
  symbols : Option (List String)

/-- Python set equality is extensional. -/
def setEq (a b : List String) : Bool :=
  a.all (fun s => decide (s ∈ b)) && b.all (fun s => decide (s ∈ a))

def optSetEq : Option (List String) → Option (List String) → Bool
  | none, none => true
  | some a, some b => setEq a b
  | _, _ => false

/-- `==` between tokenizer instances: `CharTokenizer.__eq__`
(tokenizer.py:33-34), `WordTokenizer.__eq__` (88-91), and
`SubwordTokenizer.__eq__` (140-143, inherited by `BPETokenizer` and
`SubwordsListTokenizer`); each first checks `isinstance`. -/
def tokEq (a b : Tok) : Bool :=
  match a.kind with
  | .char => decide (b.kind = .char)
  | .word => decide (b.kind = .word) && optSetEq a.symbols b.symbols
  | .bpe => decide (fam b.kind = .fSub) && optSetEq a.symbols b.symbols
  | .swl => decide (fam b.kind = .fSub) && optSetEq a.symbols b.symbols

/-! ## Auxiliary notions used by the statements -/

/-- Prepend the tracked previous node, if any, to a partial document; used to
state what the merge scan preserves. -/
def optCons : Option String → List String → List String
  | none, xs => xs
  | some p, xs => p :: xs

/-- A symbol that may take part in a valid pair on its own: composite, or
starting with a word character (`validpair`'s per-side test). -/
def okSym (s : String) : Bool := decide (1 < s.length) || wordStart s

/-- The documented invariant of the Pair Frequency Table: between merge steps
it maps every pair eligible under `validpair` to exactly its number of
adjacent occurrences across the corpus, and gives `0` for ineligible pairs. -/
def INVARIANT (cw : Bool) (f : Freqs) (corpus : List (List String)) : Prop :=
  ∀ q : Pair,
    lookupD f q = (if validpair cw q.1 q.2 then (trueCount q corpus : Int) else 0)

/-- Sorted with longest symbols first, the shape `SubwordTokenizer.compile`
produces. -/
def lenSorted (l : List String) : Prop :=
  l.Pairwise (fun a b => b.length ≤ a.length)

/-- Every symbol occurring in the corpus documents is a nonempty string; true
of every corpus `BPETokenizer.fit` ever builds (documents start as single
characters and merges concatenate). -/
def nonEmptyCorpus (corpus : List (List String)) : Prop :=
  ∀ d ∈ corpus, ∀ s ∈ d, s ≠ ""

/-! ## Basic lemmas: the frequency-table association list -/

theorem lookupD_bump (f : Freqs) (p : Pair) (d : Int) (q : Pair) :
    lookupD (bump f p d) q = lookupD f q + (if q = p then d else 0) := by
  induction f with
  | nil =>
      show lookupD [(p, d)] q = lookupD [] q + _
      by_cases h : p = q
      · subst h
        simp [lookupD]
      · rw [show lookupD [(p, d)] q = if p = q then d else lookupD [] q from rfl]
        rw [if_neg h, if_neg (fun hh => h hh.symm)]
        simp
  | cons e rest ih =>
      by_cases he : e.1 = p
      · rw [show bump (e :: rest) p d = (p, e.2 + d) :: rest by simp [bump, he]]
        by_cases hq : p = q
        · subst hq
          rw [show lookupD ((p, e.2 + d) :: rest) p = e.2 + d by simp [lookupD]]
          rw [show lookupD (e :: rest) p = e.2 by simp [lookupD, he]]
          simp
        · rw [show lookupD ((p, e.2 + d) :: rest) q = lookupD rest q by simp [lookupD, hq]]
          have he' : ¬ e.1 = q := fun h => hq (he ▸ h)
          rw [show lookupD (e :: rest) q = lookupD rest q by simp [lookupD, he']]
          rw [if_neg (fun h => hq h.symm)]
          simp
      · rw [show bump (e :: rest) p d = e :: bump rest p d by simp [bump, he]]
        by_cases hq : e.1 = q
        · have hqp : ¬ q = p := fun h => he (hq.trans h)
          rw [show lookupD (e :: bump rest p d) q = e.2 by simp [lookupD, hq]]
          rw [show lookupD (e :: rest) q = e.2 by simp [lookupD, hq]]
          simp [hqp]
        · rw [show lookupD (e :: bump rest p d) q = lookupD (bump rest p d) q by
            simp [lookupD, hq]]
          rw [show lookupD (e :: rest) q = lookupD rest q by simp [lookupD, hq]]
          exact ih

theorem lookupD_eraseKey (f : Freqs) (p q : Pair) :
    lookupD (eraseKey f p) q = if q = p then 0 else lookupD f q := by
  induction f with
  | nil =>
      by_cases h : q = p <;> simp [eraseKey, lookupD, h]
  | cons e rest ih =>
      by_cases he : e.1 = p
      · rw [show eraseKey (e :: rest) p = eraseKey rest p by
          simp [eraseKey, List.filter, he]]
        rw [ih]
        by_cases hq : q = p
        · simp [hq]
        · have he' : ¬ e.1 = q := fun h => hq ((h.symm.trans he))
          simp [hq, lookupD, he']
      · rw [show eraseKey (e :: rest) p = e :: eraseKey rest p by
          simp [eraseKey, List.filter, he]]
        by_cases hq : e.1 = q
        · have hqp : ¬ q = p := fun h => he (hq.trans h)
          simp [lookupD, hq, hqp]
        · simp only [lookupD, if_neg hq]
          exact ih

/-! ## Lemmas about the validity predicate -/

theorem validpair_eq (cw : Bool) (a b : String) :
    validpair cw a b = (cw || (okSym a && okSym b)) := by
  unfold validpair okSym
  cases cw <;> by_cases h1 : 1 < a.length <;> by_cases h2 : 1 < b.length <;>
    simp [h1, h2]

theorem validpair_symm (cw : Bool) (a b : String) :
    validpair cw a b = validpair cw b a := by
  rw [validpair_eq, validpair_eq, Bool.and_comm]

theorem okSym_append_left (l r : String) (h : okSym l = true) :
    okSym (l ++ r) = true := by
  unfold okSym at h ⊢
  rcases Bool.or_eq_true_iff.mp h with h1 | h1
  · apply Bool.or_eq_true_iff.mpr
    left
    have := of_decide_eq_true h1
    have hlen : (l ++ r).length = l.length + r.length := String.length_append l r
    exact decide_eq_true (by omega)
  · apply Bool.or_eq_true_iff.mpr
    right
    unfold wordStart at h1 ⊢
    have hdata : (l ++ r).data = l.data ++ r.data := String.data_append l r
    rw [hdata]
    cases hl : l.data with
    | nil => rw [hl] at h1; exact absurd h1 (by simp)
    | cons c t => rw [hl] at h1; simpa using h1

theorem okSym_of_validpair_left {cw : Bool} {l r : String}
    (hcw : cw = false) (hv : validpair cw l r = true) : okSym l = true := by
  rw [validpair_eq, hcw] at hv
  simpa using (Bool.and_eq_true_iff.mp (by simpa using hv)).1

theorem okSym_of_validpair_right {cw : Bool} {l r : String}
    (hcw : cw = false) (hv : validpair cw l r = true) : okSym r = true := by
  rw [validpair_eq, hcw] at hv
  simpa using (Bool.and_eq_true_iff.mp (by simpa using hv)).2

/-- Under a valid merged pair, the guard `validpair(prev, new)` used by the
source agrees with the validity of the decremented pair `(prev, left)`. -/
theorem validpair_prev_guard {cw : Bool} {l r : String}
    (hv : validpair cw l r = true) (p : String) :
    validpair cw p (l ++ r) = validpair cw p l := by
  cases hcw : cw with
  | true => rw [validpair_eq, validpair_eq]; simp
  | false =>
      subst hcw
      rw [validpair_eq, validpair_eq]
      have hl : okSym l = true := okSym_of_validpair_left rfl hv
      rw [okSym_append_left l r hl, hl]

/-- Under a valid merged pair, the guard `validpair(next, new)` used by the
source agrees with the validity of the decremented pair `(right, next)`. -/
theorem validpair_next_guard {cw : Bool} {l r : String}
    (hv : validpair cw l r = true) (nx : String) :
    validpair cw nx (l ++ r) = validpair cw r nx := by
  cases hcw : cw with
  | true => rw [validpair_eq, validpair_eq]; simp
  | false =>
      subst hcw
      rw [validpair_eq, validpair_eq]
      have hl : okSym l = true := okSym_of_validpair_left rfl hv
      have hr : okSym r = true := okSym_of_validpair_right rfl hv
      rw [okSym_append_left l r hl, hr]
      simp [Bool.and_comm]

/-! ## Delta lemmas for the incremental frequency updates -/

theorem lookupD_prevBump_some {cw : Bool} {l r : String}
    (hv : validpair cw l r = true) (p : String) (f : Freqs) (q : Pair) :
    lookupD (prevBump cw l r (some p) f) q =
      lookupD f q +
        (if validpair cw q.1 q.2 then
          (if q = (p, l ++ r) then (1 : Int) else 0) - (if q = (p, l) then 1 else 0)
         else 0) := by
  rw [show prevBump cw l r (some p) f =
      if validpair cw p (l ++ r) = true then bump (bump f (p, l ++ r) 1) (p, l) (-1)
      else f from rfl]
  by_cases hg : validpair cw p (l ++ r) = true
  · rw [if_pos hg, lookupD_bump, lookupD_bump]
    by_cases hvq : validpair cw q.1 q.2 = true
    · rw [if_pos hvq]
      split_ifs <;> omega
    · have h1 : ¬ q = (p, l ++ r) := fun h => hvq (by rw [h]; exact hg)
      have h2 : ¬ q = (p, l) := fun h => hvq (by
        rw [h]
        show validpair cw p l = true
        rw [← validpair_prev_guard hv]
        exact hg)
      rw [if_neg h1, if_neg h2, if_neg hvq]
      omega
  · rw [if_neg hg]
    by_cases hvq : validpair cw q.1 q.2 = true
    · have h1 : ¬ q = (p, l ++ r) := fun h => hg (by rw [h] at hvq; exact hvq)
      have h2 : ¬ q = (p, l) := fun h => hg (by
        rw [validpair_prev_guard hv]
        rw [h] at hvq
        exact hvq)
      rw [if_pos hvq, if_neg h1, if_neg h2]
      omega
    · rw [if_neg hvq]
      omega

theorem lookupD_nextBump_some {cw : Bool} {l r : String}
    (hv : validpair cw l r = true) (nx : String) (f : Freqs) (q : Pair) :
    lookupD (nextBump cw l r f (some nx)) q =
      lookupD f q +
        (if validpair cw q.1 q.2 then
          (if q = (l ++ r, nx) then (1 : Int) else 0) - (if q = (r, nx) then 1 else 0)
         else 0) := by
  rw [show nextBump cw l r f (some nx) =
      if validpair cw nx (l ++ r) = true then bump (bump f (l ++ r, nx) 1) (r, nx) (-1)
      else f from rfl]
  by_cases hg : validpair cw nx (l ++ r) = true
  · rw [if_pos hg, lookupD_bump, lookupD_bump]
    by_cases hvq : validpair cw q.1 q.2 = true
    · rw [if_pos hvq]
      split_ifs <;> omega
    · have h1 : ¬ q = (l ++ r, nx) := fun h => hvq (by
        rw [h]
        show validpair cw (l ++ r) nx = true
        rw [validpair_symm]
        exact hg)
      have h2 : ¬ q = (r, nx) := fun h => hvq (by
        rw [h]
        show validpair cw r nx = true
        rw [← validpair_next_guard hv]
        exact hg)
      rw [if_neg h1, if_neg h2, if_neg hvq]
      omega
  · rw [if_neg hg]
    by_cases hvq : validpair cw q.1 q.2 = true
    · have h1 : ¬ q = (l ++ r, nx) := fun h => hg (by
        rw [h] at hvq
        rw [validpair_symm]
        exact hvq)
      have h2 : ¬ q = (r, nx) := fun h => hg (by
        rw [validpair_next_guard hv]
        rw [h] at hvq
        exact hvq)
      rw [if_pos hvq, if_neg h1, if_neg h2]
      omega
    · rw [if_neg hvq]
      omega

/-! ## Counting lemmas and scan unfoldings -/

theorem cntP_cons (q e : Pair) (t : List Pair) :
    cntP q (e :: t) = (if e = q then 1 else 0) + cntP q t := rfl

theorem adjPairs_cons_cons (x y : String) (rest : List String) :
    adjPairs (x :: y :: rest) = (x, y) :: adjPairs (y :: rest) := rfl

theorem mergeScan_nil (cw : Bool) (l r : String) (prev : Option String) (f : Freqs) :
    mergeScan cw l r prev [] f = ([], f) := rfl

theorem mergeScan_one (cw : Bool) (l r x : String) (prev : Option String) (f : Freqs) :
    mergeScan cw l r prev [x] f = ([x], f) := rfl

theorem mergeScan_merge (cw : Bool) (l r : String) (prev : Option String)
    (rest : List String) (f : Freqs) :
    mergeScan cw l r prev (l :: r :: rest) f =
      ((l ++ r) :: (mergeScan cw l r (some (l ++ r)) rest
          (nextBump cw l r (prevBump cw l r prev f) rest.head?)).1,
       (mergeScan cw l r (some (l ++ r)) rest
          (nextBump cw l r (prevBump cw l r prev f) rest.head?)).2) := by
  simp [mergeScan]

theorem mergeScan_nomerge (cw : Bool) (l r x y : String) (prev : Option String)
    (rest : List String) (f : Freqs) (h : ¬(x = l ∧ y = r)) :
    mergeScan cw l r prev (x :: y :: rest) f =
      (x :: (mergeScan cw l r (some x) (y :: rest) f).1,
       (mergeScan cw l r (some x) (y :: rest) f).2) := by
  simp [mergeScan, h]


theorem cntP_cons2 (q e : Pair) (t : List Pair) :
    cntP q (e :: t) = (if q = e then 1 else 0) + cntP q t := by
  rw [cntP_cons]
  by_cases h : e = q
  · rw [if_pos h, if_pos h.symm]
  · rw [if_neg h, if_neg (fun hh => h hh.symm)]

theorem cntP_nil (q : Pair) : cntP q [] = 0 := rfl

theorem adjPairs_nil : adjPairs [] = [] := rfl

theorem adjPairs_single (x : String) : adjPairs [x] = [] := rfl

/-- Core accounting property of the incremental update: one document scan
changes each tracked (non-merged, valid) pair's count by exactly the change in
its number of adjacent occurrences, counting the boundary with the previous
node; ineligible pairs are never touched. -/
theorem mergeScan_freqs {cw : Bool} {l r : String} (hv : validpair cw l r = true) :
    ∀ (k : Nat) (xs : List String), xs.length ≤ k →
      ∀ (prev : Option String) (f : Freqs) (q : Pair), q ≠ (l, r) →
      lookupD (mergeScan cw l r prev xs f).2 q =
        lookupD f q +
          (if validpair cw q.1 q.2 then
            ((cntP q (adjPairs (optCons prev (mergeScan cw l r prev xs f).1)) : Int) -
             (cntP q (adjPairs (optCons prev xs)) : Int))
           else 0) := by
  intro k
  induction k with
  | zero =>
      intro xs hk prev f q _
      have hxs : xs = [] := List.eq_nil_of_length_eq_zero (Nat.le_zero.mp hk)
      subst hxs
      simp [mergeScan_nil]
  | succ k ih =>
      intro xs hk prev f q hq
      match xs with
      | [] => simp [mergeScan_nil]
      | [x] => simp [mergeScan_one]
      | x :: y :: rest =>
        by_cases hxy : x = l ∧ y = r
        · obtain ⟨hx, hy⟩ := hxy
          subst hx
          subst hy
          rw [mergeScan_merge]
          have hlen : rest.length ≤ k := by
            simp only [List.length_cons] at hk
            omega
          rw [ih rest hlen (some (x ++ y))
              (nextBump cw x y (prevBump cw x y prev f) rest.head?) q hq]
          cases rest with
          | nil =>
              cases prev with
              | none =>
                  simp only [List.head?_nil, nextBump, prevBump, optCons,
                    mergeScan_nil, adjPairs_cons_cons, adjPairs_single, adjPairs_nil,
                    cntP_cons2, cntP_nil, if_neg hq]
              | some pv =>
                  simp only [List.head?_nil, nextBump]
                  rw [lookupD_prevBump_some hv pv f q]
                  simp only [optCons, mergeScan_nil]
                  by_cases hvq : validpair cw q.1 q.2 = true
                  · simp only [if_pos hvq, adjPairs_cons_cons, adjPairs_single,
                      adjPairs_nil, cntP_cons2, cntP_nil]
                    push_cast
                    rw [if_neg hq]
                    split_ifs <;> omega
                  · simp [hvq]
          | cons nx rest' =>
              simp only [List.head?_cons]
              rw [lookupD_nextBump_some hv nx (prevBump cw x y prev f) q]
              cases prev with
              | none =>
                  simp only [prevBump, optCons]
                  by_cases hvq : validpair cw q.1 q.2 = true
                  · simp only [if_pos hvq, adjPairs_cons_cons, cntP_cons2]
                    push_cast
                    rw [if_neg hq]
                    split_ifs <;> omega
                  · simp [hvq]
              | some pv =>
                  rw [lookupD_prevBump_some hv pv f q]
                  simp only [optCons]
                  by_cases hvq : validpair cw q.1 q.2 = true
                  · simp only [if_pos hvq, adjPairs_cons_cons, cntP_cons2]
                    push_cast
                    rw [if_neg hq]
                    split_ifs <;> omega
                  · simp [hvq]
        · rw [mergeScan_nomerge cw l r x y prev rest f hxy]
          have hlen : (y :: rest).length ≤ k := by
            simp only [List.length_cons] at hk ⊢
            omega
          rw [ih (y :: rest) hlen (some x) f q hq]
          cases prev with
          | none => simp [optCons]
          | some pv =>
              simp only [optCons]
              by_cases hvq : validpair cw q.1 q.2 = true
              · simp only [if_pos hvq, adjPairs_cons_cons, cntP_cons2]
                push_cast
                split_ifs <;> omega
              · simp [hvq]

theorem strlen_pos {s : String} (h : s ≠ "") : 0 < s.length := by
  cases s with
  | mk data =>
      cases data with
      | nil => exact absurd rfl h
      | cons c t => simp [String.length]

/-- After the scan, no `(l, r)` adjacency remains in the document (counting
the boundary with the tracked previous node). -/
theorem mergeScan_no_lr {cw : Bool} {l r : String} (hl : l ≠ "") (hr : r ≠ "") :
    ∀ (k : Nat) (xs : List String), xs.length ≤ k →
      ∀ (prev : Option String) (f : Freqs),
      (prev = some l → xs.head? ≠ some r) →
      cntP (l, r) (adjPairs (optCons prev (mergeScan cw l r prev xs f).1)) = 0 := by
  intro k
  induction k with
  | zero =>
      intro xs hk prev f _
      have hxs : xs = [] := List.eq_nil_of_length_eq_zero (Nat.le_zero.mp hk)
      subst hxs
      cases prev <;> simp [mergeScan_nil, optCons, adjPairs_nil, adjPairs_single, cntP_nil]
  | succ k ih =>
      intro xs hk prev f hcond
      match xs with
      | [] =>
          cases prev <;>
            simp [mergeScan_nil, optCons, adjPairs_nil, adjPairs_single, cntP_nil]
      | [x] =>
          cases prev with
          | none => simp [mergeScan_one, optCons, adjPairs_single, cntP_nil]
          | some pv =>
              simp only [mergeScan_one, optCons, adjPairs_cons_cons, adjPairs_single,
                cntP_cons2, cntP_nil]
              have hne : ¬ ((l, r) = (pv, x)) := by
                intro h
                have h1 : l = pv := by simpa using congrArg Prod.fst h
                have h2 : r = x := by simpa using congrArg Prod.snd h
                exact (hcond (by rw [h1])) (by simp [h2])
              rw [if_neg hne]
      | x :: y :: rest =>
        by_cases hxy : x = l ∧ y = r
        · obtain ⟨hx, hy⟩ := hxy
          subst hx
          subst hy
          rw [mergeScan_merge]
          have hlen : rest.length ≤ k := by
            simp only [List.length_cons] at hk
            omega
          have hxyne : x ++ y ≠ x := by
            intro h
            have := congrArg String.length h
            rw [String.length_append] at this
            have := strlen_pos hr
            omega
          have hxyner : x ++ y ≠ y := by
            intro h
            have := congrArg String.length h
            rw [String.length_append] at this
            have := strlen_pos hl
            omega
          have hrec := ih rest hlen (some (x ++ y))
            (nextBump cw x y (prevBump cw x y prev f) rest.head?)
            (fun hp => absurd (Option.some.inj hp) hxyne)
          simp only [optCons] at hrec
          cases prev with
          | none =>
              simpa only [optCons] using hrec
          | some pv =>
              simp only [optCons, adjPairs_cons_cons, cntP_cons2]
              rw [hrec]
              have hne : ¬ ((x, y) = (pv, x ++ y)) := by
                intro h
                have h2 : y = x ++ y := by simpa using congrArg Prod.snd h
                exact hxyner h2.symm
              rw [if_neg hne]
        · rw [mergeScan_nomerge cw l r x y prev rest f hxy]
          have hlen : (y :: rest).length ≤ k := by
            simp only [List.length_cons] at hk ⊢
            omega
          have hrec := ih (y :: rest) hlen (some x) f (by
            intro hp hhead
            exact hxy ⟨Option.some.inj hp, Option.some.inj hhead⟩)
          simp only [optCons] at hrec
          cases prev with
          | none => simpa only [optCons] using hrec
          | some pv =>
              simp only [optCons, adjPairs_cons_cons, cntP_cons2]
              rw [hrec]
              have hne : ¬ ((l, r) = (pv, x)) := by
                intro h
                have h1 : l = pv := by simpa using congrArg Prod.fst h
                have h2 : r = x := by simpa using congrArg Prod.snd h
                exact (hcond (by rw [h1]) : (x :: y :: rest).head? ≠ some r)
                  (by simp [h2])
              rw [if_neg hne]

/-- Symbols of a scanned document are the new symbol or old symbols. -/
theorem mergeScan_mem {cw : Bool} {l r : String} :
    ∀ (k : Nat) (xs : List String), xs.length ≤ k →
      ∀ (prev : Option String) (f : Freqs) (s : String),
      s ∈ (mergeScan cw l r prev xs f).1 → s = l ++ r ∨ s ∈ xs := by
  intro k
  induction k with
  | zero =>
      intro xs hk prev f s hs
      have hxs : xs = [] := List.eq_nil_of_length_eq_zero (Nat.le_zero.mp hk)
      subst hxs
      simp [mergeScan_nil] at hs
  | succ k ih =>
      intro xs hk prev f s hs
      match xs with
      | [] => simp [mergeScan_nil] at hs
      | [x] =>
          simp [mergeScan_one] at hs
          simp [hs]
      | x :: y :: rest =>
        by_cases hxy : x = l ∧ y = r
        · obtain ⟨hx, hy⟩ := hxy
          subst hx
          subst hy
          rw [mergeScan_merge] at hs
          have hlen : rest.length ≤ k := by
            simp only [List.length_cons] at hk
            omega
          rcases List.mem_cons.mp hs with h | h
          · exact Or.inl h
          · rcases ih rest hlen (some (x ++ y))
              (nextBump cw x y (prevBump cw x y prev f) rest.head?) s h with h2 | h2
            · exact Or.inl h2
            · exact Or.inr (by simp [h2])
        · rw [mergeScan_nomerge cw l r x y prev rest f hxy] at hs
          have hlen : (y :: rest).length ≤ k := by
            simp only [List.length_cons] at hk ⊢
            omega
          rcases List.mem_cons.mp hs with h | h
          · exact Or.inr (by simp [h])
          · rcases ih (y :: rest) hlen (some x) f s h with h2 | h2
            · exact Or.inl h2
            · exact Or.inr (by
                rcases List.mem_cons.mp h2 with h3 | h3 <;> simp [h3])

/-- Corpus-level accounting: after `mergesymbols`' document loop, every valid
pair other than the merged one counts exactly its new number of occurrences,
and ineligible pairs are untouched. -/
theorem mergeCorpus_freqs {cw : Bool} {l r : String} (hv : validpair cw l r = true) :
    ∀ (docs : List (List String)) (f : Freqs) (q : Pair), q ≠ (l, r) →
      lookupD (mergeCorpus cw l r docs f).2 q =
        lookupD f q +
          (if validpair cw q.1 q.2 then
            ((trueCount q (mergeCorpus cw l r docs f).1 : Int) -
             (trueCount q docs : Int))
           else 0) := by
  intro docs
  induction docs with
  | nil =>
      intro f q _
      simp [mergeCorpus, trueCount]
  | cons d ds ih =>
      intro f q hq
      show lookupD (mergeCorpus cw l r ds (mergeScan cw l r none d f).2).2 q = _
      rw [ih (mergeScan cw l r none d f).2 q hq]
      have hd := mergeScan_freqs hv d.length d le_rfl none f q hq
      simp only [optCons] at hd
      rw [hd]
      show _ = lookupD f q +
        (if validpair cw q.1 q.2 then
          (((cntP q (adjPairs (mergeScan cw l r none d f).1) +
             trueCount q (mergeCorpus cw l r ds (mergeScan cw l r none d f).2).1 : Nat) : Int) -
           ((cntP q (adjPairs d) + trueCount q ds : Nat) : Int))
         else 0)
      by_cases hvq : validpair cw q.1 q.2 = true
      · simp only [if_pos hvq]
        push_cast
        omega
      · simp [hvq]

/-- No `(l, r)` adjacency survives anywhere in the merged corpus. -/
theorem mergeCorpus_no_lr {cw : Bool} {l r : String} (hl : l ≠ "") (hr : r ≠ "") :
    ∀ (docs : List (List String)) (f : Freqs),
      trueCount (l, r) (mergeCorpus cw l r docs f).1 = 0 := by
  intro docs
  induction docs with
  | nil => intro f; simp [mergeCorpus, trueCount]
  | cons d ds ih =>
      intro f
      show trueCount (l, r) ((mergeScan cw l r none d f).1 ::
        (mergeCorpus cw l r ds (mergeScan cw l r none d f).2).1) = 0
      have hd := @mergeScan_no_lr cw l r hl hr d.length d le_rfl none f (by simp)
      simp only [optCons] at hd
      simp [trueCount, hd, ih]

/-! ## Establishment: the initial pass satisfies the invariant -/

theorem lookupD_pairAddList (cw : Bool) :
    ∀ (qs : List Pair) (f : Freqs) (q : Pair),
      lookupD (pairAddList cw f qs) q =
        lookupD f q + (if validpair cw q.1 q.2 then (cntP q qs : Int) else 0) := by
  intro qs
  induction qs with
  | nil =>
      intro f q
      simp [pairAddList, cntP_nil]
  | cons e t ih =>
      intro f q
      show lookupD (pairAddList cw (if validpair cw e.1 e.2 then bump f e 1 else f) t) q = _
      rw [ih, cntP_cons2]
      by_cases hqe : q = e
      · subst hqe
        by_cases hvq : validpair cw q.1 q.2 = true
        · simp only [if_pos hvq, lookupD_bump]
          simp only [if_true]
          push_cast
          omega
        · simp only [if_neg hvq]
      · by_cases hve : validpair cw e.1 e.2 = true
        · simp only [if_pos hve, lookupD_bump, if_neg hqe]
          by_cases hvq : validpair cw q.1 q.2 = true
          · simp only [if_pos hvq]
            push_cast
            omega
          · simp only [if_neg hvq]
            omega
        · simp only [if_neg hve]
          by_cases hvq : validpair cw q.1 q.2 = true
          · simp only [if_pos hvq, if_neg hqe]
            push_cast
            omega
          · simp only [if_neg hvq]

theorem lookupD_pairfreqsGo (cw : Bool) :
    ∀ (ds : List (List String)) (f : Freqs) (q : Pair),
      lookupD (pairfreqsGo cw f ds) q =
        lookupD f q + (if validpair cw q.1 q.2 then (trueCount q ds : Int) else 0) := by
  intro ds
  induction ds with
  | nil =>
      intro f q
      simp [pairfreqsGo, trueCount]
  | cons d t ih =>
      intro f q
      show lookupD (pairfreqsGo cw (pairAddList cw f (adjPairs d)) t) q = _
      rw [ih, lookupD_pairAddList]
      show _ = lookupD f q +
        (if validpair cw q.1 q.2 then
          ((cntP q (adjPairs d) + trueCount q t : Nat) : Int) else 0)
      by_cases hvq : validpair cw q.1 q.2 = true
      · simp only [if_pos hvq]
        push_cast
        omega
      · simp only [if_neg hvq]
        omega

/-- `BPETokenizer.pairfreqs` establishes the table invariant. -/
theorem pairfreqs_establishes (cw : Bool) (corpus : List (List String)) :
    INVARIANT cw (pairfreqs cw corpus) corpus := by
  intro q
  rw [pairfreqs, lookupD_pairfreqsGo]
  simp [lookupD]

/-! ## Preservation: one merge step keeps the invariant -/

/-- `BPETokenizer.mergesymbols` preserves the table invariant for the merged
corpus, provided the merged pair is eligible and its symbols nonempty. -/
theorem mergesymbols_preserves {cw : Bool} {l r : String}
    (hv : validpair cw l r = true) (hl : l ≠ "") (hr : r ≠ "")
    {f : Freqs} {corpus : List (List String)} (hinv : INVARIANT cw f corpus)
    (symbols : List String) :
    INVARIANT cw (mergesymbols cw corpus symbols f l r).2.1
      (mergesymbols cw corpus symbols f l r).1 := by
  intro q
  show lookupD (eraseKey (mergeCorpus cw l r corpus f).2 (l, r)) q =
    (if validpair cw q.1 q.2 then
      ((trueCount q (mergeCorpus cw l r corpus f).1 : Nat) : Int) else 0)
  rw [lookupD_eraseKey]
  by_cases hq : q = (l, r)
  · rw [if_pos hq, hq]
    have h0 : trueCount (l, r) (mergeCorpus cw l r corpus f).1 = 0 :=
      mergeCorpus_no_lr hl hr corpus f
    show (0 : Int) = _
    rw [if_pos hv, h0]
    simp
  · rw [if_neg hq, mergeCorpus_freqs hv corpus f q hq, hinv q]
    by_cases hvq : validpair cw q.1 q.2 = true
    · simp only [if_pos hvq]
      omega
    · simp only [if_neg hvq]
      omega

/-! ## Selection safety -/

theorem cntP_adjPairs_pos_mem {q : Pair} :
    ∀ (d : List String), 0 < cntP q (adjPairs d) → q.1 ∈ d ∧ q.2 ∈ d := by
  intro d
  induction d with
  | nil => intro h; simp [adjPairs_nil, cntP_nil] at h
  | cons x t ih =>
      intro h
      cases t with
      | nil => simp [adjPairs_single, cntP_nil] at h
      | cons y rest =>
          rw [adjPairs_cons_cons, cntP_cons2] at h
          by_cases hq : q = (x, y)
          · exact ⟨by simp [hq], by simp [hq]⟩
          · rw [if_neg hq] at h
            have h2 := ih (by omega)
            exact ⟨List.mem_cons_of_mem x h2.1, List.mem_cons_of_mem x h2.2⟩

theorem trueCount_pos_mem {q : Pair} :
    ∀ (corpus : List (List String)), 0 < trueCount q corpus →
      ∃ d ∈ corpus, q.1 ∈ d ∧ q.2 ∈ d := by
  intro corpus
  induction corpus with
  | nil => intro h; simp [trueCount] at h
  | cons d ds ih =>
      intro h
      rw [show trueCount q (d :: ds) = cntP q (adjPairs d) + trueCount q ds from rfl] at h
      by_cases hd : 0 < cntP q (adjPairs d)
      · exact ⟨d, by simp, cntP_adjPairs_pos_mem d hd⟩
      · obtain ⟨d', hd', hmem⟩ := ih (by omega)
        exact ⟨d', List.mem_cons_of_mem d hd', hmem⟩

/-- A pair whose table count is at least one is eligible and truly occurs in
the corpus; with a positive `minfreq` this is exactly the situation of a pair
accepted for merging by `mergingrun`. -/
theorem selection_safe {cw : Bool} {f : Freqs} {corpus : List (List String)}
    (hinv : INVARIANT cw f corpus) {l r : String}
    (hpos : 1 ≤ lookupD f (l, r)) :
    validpair cw l r = true ∧ 0 < trueCount (l, r) corpus := by
  have h := hinv (l, r)
  by_cases hv : validpair cw l r = true
  · refine ⟨hv, ?_⟩
    rw [h, if_pos hv] at hpos
    exact_mod_cast hpos
  · rw [h, if_neg hv] at hpos
    omega

theorem append_ne_empty {l : String} (r : String) (hl : l ≠ "") : l ++ r ≠ "" := by
  intro h
  have hlen := congrArg String.length h
  rw [String.length_append] at hlen
  have := strlen_pos hl
  have hz : ("" : String).length = 0 := rfl
  omega

theorem mergeCorpus_nonEmpty {cw : Bool} {l r : String} (hl : l ≠ "") :
    ∀ (docs : List (List String)) (f : Freqs), nonEmptyCorpus docs →
      nonEmptyCorpus (mergeCorpus cw l r docs f).1 := by
  intro docs
  induction docs with
  | nil => intro f _; intro d hd; simp [mergeCorpus] at hd
  | cons d ds ih =>
      intro f hne d' hd' s hs
      rw [show (mergeCorpus cw l r (d :: ds) f).1 =
        (mergeScan cw l r none d f).1 ::
          (mergeCorpus cw l r ds (mergeScan cw l r none d f).2).1 from rfl] at hd'
      rcases List.mem_cons.mp hd' with h | h
      · subst h
        rcases mergeScan_mem d.length d le_rfl none f s hs with h2 | h2
        · rw [h2]
          exact append_ne_empty r hl
        · exact hne d (by simp) s h2
      · exact ih (mergeScan cw l r none d f).2
          (fun d0 hd0 s0 hs0 => hne d0 (List.mem_cons_of_mem d hd0) s0 hs0) d' h s hs

theorem mergingrun_succ (n : Nat) (mf : Int) (cw : Bool) (fuel : Nat)
    (corpus : List (List String)) (f : Freqs) (symbols : List String) :
    mergingrun n mf cw (fuel + 1) corpus f symbols =
      if symbols.length < n then
        match argmaxKey f with
        | none => none
        | some (l, r) =>
          if lookupD f (l, r) < mf then some (corpus, f, symbols)
          else
            mergingrun n mf cw fuel (mergesymbols cw corpus symbols f l r).1
              (mergesymbols cw corpus symbols f l r).2.1
              (mergesymbols cw corpus symbols f l r).2.2
      else some (corpus, f, symbols) := rfl

/-- `BPETokenizer.mergingrun` keeps the table invariant (and corpus symbol
nonemptiness) through every merge step, for a positive `minfreq`. -/
theorem mergingrun_preserves {n : Nat} {mf : Int} {cw : Bool} (hmf : 1 ≤ mf) :
    ∀ (fuel : Nat) (corpus : List (List String)) (f : Freqs) (symbols : List String)
      (out : List (List String) × Freqs × List String),
      nonEmptyCorpus corpus → INVARIANT cw f corpus →
      mergingrun n mf cw fuel corpus f symbols = some out →
      INVARIANT cw out.2.1 out.1 ∧ nonEmptyCorpus out.1 := by
  intro fuel
  induction fuel with
  | zero =>
      intro corpus f symbols out _ _ hrun
      exact absurd hrun (by simp [mergingrun])
  | succ fuel ih =>
      intro corpus f symbols out hne hinv hrun
      rw [mergingrun_succ] at hrun
      by_cases hlen : symbols.length < n
      · rw [if_pos hlen] at hrun
        cases hsel : argmaxKey f with
        | none =>
            rw [hsel] at hrun
            exact absurd hrun (by simp)
        | some p =>
            obtain ⟨l, r⟩ := p
            rw [hsel] at hrun
            have hrun : (if lookupD f (l, r) < mf then some (corpus, f, symbols)
                else mergingrun n mf cw fuel (mergesymbols cw corpus symbols f l r).1
                  (mergesymbols cw corpus symbols f l r).2.1
                  (mergesymbols cw corpus symbols f l r).2.2) = some out := hrun
            by_cases hlt : lookupD f (l, r) < mf
            · rw [if_pos hlt] at hrun
              have hout := Option.some.inj hrun
              rw [← hout]
              exact ⟨hinv, hne⟩
            · rw [if_neg hlt] at hrun
              have hpos : 1 ≤ lookupD f (l, r) := le_trans hmf (le_of_not_lt hlt)
              obtain ⟨hv, htc⟩ := selection_safe hinv hpos
              obtain ⟨d, hd, hl_mem, hr_mem⟩ := trueCount_pos_mem corpus htc
              have hlne : l ≠ "" := hne d hd l hl_mem
              have hrne : r ≠ "" := hne d hd r hr_mem
              have hinv' := mergesymbols_preserves hv hlne hrne hinv symbols
              have hne' : nonEmptyCorpus (mergesymbols cw corpus symbols f l r).1 :=
                mergeCorpus_nonEmpty hlne corpus f hne
              exact ih (mergesymbols cw corpus symbols f l r).1
                (mergesymbols cw corpus symbols f l r).2.1
                (mergesymbols cw corpus symbols f l r).2.2 out hne' hinv' hrun
      · rw [if_neg hlen] at hrun
        have hout := Option.some.inj hrun
        rw [← hout]
        exact ⟨hinv, hne⟩

/-! ## Claim theorems -/

/-- C1: During `BPETokenizer.fit`, between merge steps the pair frequency
table maps each `validpair`-eligible ordered pair to exactly its number of
adjacent occurrences across the corpus (and ineligible pairs to zero): the
initial `pairfreqs` pass establishes this invariant, `mergesymbols` preserves
it through every merge, and any whole `mergingrun` preserves it; moreover a
pair accepted for merging (table count at least `minfreq`, with `minfreq`
positive) is always eligible and has a strictly positive number of true
occurrences — never a zero-or-below or vanished entry. -/
theorem c1_pair_table_invariant :
    (∀ (cw : Bool) (corpus : List (List String)),
        INVARIANT cw (pairfreqs cw corpus) corpus) ∧
    (∀ (cw : Bool) (l r : String) (f : Freqs) (corpus : List (List String))
        (symbols : List String),
        INVARIANT cw f corpus → validpair cw l r = true → l ≠ "" → r ≠ "" →
        INVARIANT cw (mergesymbols cw corpus symbols f l r).2.1
          (mergesymbols cw corpus symbols f l r).1) ∧
    (∀ (cw : Bool) (mf : Int) (f : Freqs) (corpus : List (List String)) (l r : String),
        INVARIANT cw f corpus → 1 ≤ mf → argmaxKey f = some (l, r) →
        mf ≤ lookupD f (l, r) →
        validpair cw l r = true ∧ 0 < trueCount (l, r) corpus) ∧
    (∀ (n : Nat) (mf : Int) (cw : Bool) (fuel : Nat) (corpus : List (List String))
        (f : Freqs) (symbols : List String)
        (out : List (List String) × Freqs × List String),
        1 ≤ mf → nonEmptyCorpus corpus → INVARIANT cw f corpus →
        mergingrun n mf cw fuel corpus f symbols = some out →
        INVARIANT cw out.2.1 out.1) := by
  refine ⟨?_, ?_, ?_, ?_⟩
  · intro cw corpus
    exact pairfreqs_establishes cw corpus
  · intro cw l r f corpus symbols hinv hv hl hr
    exact mergesymbols_preserves hv hl hr hinv symbols
  · intro cw mf f corpus l r hinv hmf _ hge
    exact selection_safe hinv (le_trans hmf hge)
  · intro n mf cw fuel corpus f symbols out hmf hne hinv hrun
    exact (mergingrun_preserves hmf fuel corpus f symbols out hne hinv hrun).1

theorem c1_pair_table_invariant_witness :
    INVARIANT false (pairfreqs false [toDoc "ab"]) [toDoc "ab"] ∧
    INVARIANT false
      (mergesymbols false [toDoc "ab"] (charSyms [toDoc "ab"])
        (pairfreqs false [toDoc "ab"]) "a" "b").2.1
      (mergesymbols false [toDoc "ab"] (charSyms [toDoc "ab"])
        (pairfreqs false [toDoc "ab"]) "a" "b").1 ∧
    (validpair false "a" "b" = true ∧
      0 < trueCount ("a", "b") [toDoc "ab"]) ∧
    INVARIANT false (pairfreqs false [toDoc "ab"]) [toDoc "ab"] := by
  obtain ⟨h1, h2, h3, h4⟩ := c1_pair_table_invariant
  have hinv := h1 false [toDoc "ab"]
  refine ⟨hinv, ?_, ?_, ?_⟩
  · exact h2 false "a" "b" (pairfreqs false [toDoc "ab"]) [toDoc "ab"]
      (charSyms [toDoc "ab"]) hinv (by decide) (by decide) (by decide)
  · exact h3 false 1 (pairfreqs false [toDoc "ab"]) [toDoc "ab"] "a" "b"
      hinv (by decide) (by decide) (by decide)
  · exact h4 0 1 false 1 [toDoc "ab"] (pairfreqs false [toDoc "ab"])
      (charSyms [toDoc "ab"]) ([toDoc "ab"], pairfreqs false [toDoc "ab"],
        charSyms [toDoc "ab"]) (by decide)
      (by intro d hd s hs; fin_cases hd <;> fin_cases hs <;> decide) hinv (by decide)

/-! ## Maximality of the merge selection -/

theorem argmaxGo_spec :
    ∀ (entries : Freqs) (b res : Pair × Int),
      argmaxGo (some b) entries = some res →
      (res = b ∨ res ∈ entries) ∧ b.2 ≤ res.2 ∧ ∀ e ∈ entries, e.2 ≤ res.2 := by
  intro entries
  induction entries with
  | nil =>
      intro b res h
      have hb : res = b := (Option.some.inj h).symm
      exact ⟨Or.inl hb, by rw [hb], by intro e he; simp at he⟩
  | cons e t ih =>
      intro b res h
      have h' : argmaxGo (some (if b.2 < e.2 then e else b)) t = some res := h
      obtain ⟨hmem, hle, hall⟩ := ih (if b.2 < e.2 then e else b) res h'
      refine ⟨?_, ?_, ?_⟩
      · rcases hmem with hm | hm
        · by_cases hb : b.2 < e.2
          · rw [if_pos hb] at hm
            exact Or.inr (by simp [hm])
          · rw [if_neg hb] at hm
            exact Or.inl hm
        · exact Or.inr (List.mem_cons_of_mem e hm)
      · refine le_trans ?_ hle
        by_cases hb : b.2 < e.2
        · rw [if_pos hb]
          omega
        · rw [if_neg hb]
      · intro e' he'
        rcases List.mem_cons.mp he' with h2 | h2
        · subst h2
          refine le_trans ?_ hle
          by_cases hb : b.2 < e'.2
          · rw [if_pos hb]
          · rw [if_neg hb]
            omega
        · exact hall e' h2

theorem lookupD_mem_nodup :
    ∀ (f : Freqs) (e : Pair × Int), e ∈ f → (f.map Prod.fst).Nodup →
      lookupD f e.1 = e.2 := by
  intro f
  induction f with
  | nil => intro e he; simp at he
  | cons hd t ih =>
      intro e he hnd
      rcases List.mem_cons.mp he with h | h
      · subst h
        simp [lookupD]
      · have hne : ¬ hd.1 = e.1 := by
          intro hcon
          have h1 : hd.1 ∉ t.map Prod.fst := (List.nodup_cons.mp hnd).1
          exact h1 (hcon ▸ List.mem_map_of_mem Prod.fst h)
        rw [show lookupD (hd :: t) e.1 = if hd.1 = e.1 then hd.2 else lookupD t e.1
          from rfl, if_neg hne]
        exact ih e h (List.nodup_cons.mp hnd).2

/-- `max(freqs, key=freqs.get)` really returns a key of maximal count. -/
theorem argmaxKey_max (f : Freqs) (pr : Pair) (hnd : (f.map Prod.fst).Nodup)
    (hsel : argmaxKey f = some pr) :
    ∀ q ∈ f.map Prod.fst, lookupD f q ≤ lookupD f pr := by
  intro q hq
  cases f with
  | nil => simp [argmaxKey, argmaxGo] at hsel
  | cons e t =>
      have hgo0 : argmaxGo none (e :: t) = argmaxGo (some e) t := rfl
      rw [argmaxKey, hgo0] at hsel
      cases hgo : argmaxGo (some e) t with
      | none => rw [hgo] at hsel; simp at hsel
      | some res =>
          rw [hgo] at hsel
          have hpr : res.1 = pr := by simpa using hsel
          obtain ⟨hmem, hbe, hall⟩ := argmaxGo_spec t e res hgo
          have hres_mem : res ∈ e :: t := by
            rcases hmem with h | h
            · rw [h]; simp
            · exact List.mem_cons_of_mem e h
          have hres_look : lookupD (e :: t) pr = res.2 := by
            rw [← hpr]
            exact lookupD_mem_nodup (e :: t) res hres_mem hnd
          obtain ⟨eq, heq_mem, heq⟩ := List.mem_map.mp hq
          have heq_look : lookupD (e :: t) q = eq.2 := by
            rw [← heq]
            exact lookupD_mem_nodup (e :: t) eq heq_mem hnd
          rw [hres_look, heq_look]
          rcases List.mem_cons.mp heq_mem with h | h
          · rw [h]; exact hbe
          · exact hall eq h

/-- C2: In every iteration of `BPETokenizer.mergingrun` the selected pair has
maximum count in the table; if that maximum count is below `minfreq` the run
returns at once without merging; and on the corpus `["aaabdaaabac"]` the
initial table gives the pair `("a", "a")` count 4, which is what the first
merge selects (ahead of every lower-count pair), the first step of
`mergingrun` with `minfreq = 2` and budget 4096 being exactly the merge of
`("a", "a")`. -/
theorem c2_merge_selection :
    (∀ (f : Freqs) (pr : Pair), (f.map Prod.fst).Nodup → argmaxKey f = some pr →
        ∀ q ∈ f.map Prod.fst, lookupD f q ≤ lookupD f pr) ∧
    (∀ (n : Nat) (mf : Int) (cw : Bool) (fuel : Nat) (corpus : List (List String))
        (f : Freqs) (symbols : List String) (l r : String),
        symbols.length < n → argmaxKey f = some (l, r) → lookupD f (l, r) < mf →
        mergingrun n mf cw (fuel + 1) corpus f symbols = some (corpus, f, symbols)) ∧
    (argmaxKey (pairfreqs false (["aaabdaaabac"].map toDoc)) = some ("a", "a") ∧
     lookupD (pairfreqs false (["aaabdaaabac"].map toDoc)) ("a", "a") = 4 ∧
     ∀ (fuel : Nat),
       mergingrun 4096 2 false (fuel + 1) (["aaabdaaabac"].map toDoc)
         (pairfreqs false (["aaabdaaabac"].map toDoc))
         (charSyms (["aaabdaaabac"].map toDoc)) =
       mergingrun 4096 2 false fuel
         (mergesymbols false (["aaabdaaabac"].map toDoc)
           (charSyms (["aaabdaaabac"].map toDoc))
           (pairfreqs false (["aaabdaaabac"].map toDoc)) "a" "a").1
         (mergesymbols false (["aaabdaaabac"].map toDoc)
           (charSyms (["aaabdaaabac"].map toDoc))
           (pairfreqs false (["aaabdaaabac"].map toDoc)) "a" "a").2.1
         (mergesymbols false (["aaabdaaabac"].map toDoc)
           (charSyms (["aaabdaaabac"].map toDoc))
           (pairfreqs false (["aaabdaaabac"].map toDoc)) "a" "a").2.2) := by
  refine ⟨argmaxKey_max, ?_, by decide, by decide, ?_⟩
  · intro n mf cw fuel corpus f symbols l r hlen hsel hlt
    rw [mergingrun_succ, if_pos hlen, hsel]
    show (if lookupD f (l, r) < mf then some (corpus, f, symbols) else _) =
      some (corpus, f, symbols)
    rw [if_pos hlt]
  · intro fuel
    rw [mergingrun_succ]
    rw [if_pos (by decide : (charSyms (["aaabdaaabac"].map toDoc)).length < 4096)]
    rw [show argmaxKey (pairfreqs false (["aaabdaaabac"].map toDoc)) =
      some ("a", "a") from by decide]
    show (if lookupD (pairfreqs false (["aaabdaaabac"].map toDoc)) ("a", "a") < 2
      then _ else _) = _
    rw [if_neg (by decide)]

theorem c2_merge_selection_witness :
    lookupD (pairfreqs false (["aaabdaaabac"].map toDoc)) ("a", "b") ≤
      lookupD (pairfreqs false (["aaabdaaabac"].map toDoc)) ("a", "a") ∧
    mergingrun 4096 2 false 1 [toDoc "ab"] [(("a", "b"), 1)] ["a", "b"] =
      some ([toDoc "ab"], [(("a", "b"), 1)], ["a", "b"]) := by
  obtain ⟨h1, h2, h3⟩ := c2_merge_selection
  constructor
  · exact h1 (pairfreqs false (["aaabdaaabac"].map toDoc)) ("a", "a")
      (by decide) h3.1 ("a", "b") (by decide)
  · exact h2 4096 2 false 0 [toDoc "ab"] [(("a", "b"), 1)] ["a", "b"] "a" "b"
      (by decide) (by decide) (by decide)

/-! ## Matcher lemmas -/

theorem transformGoF_nil (det : List String) (fuel : Nat) :
    transformGoF det fuel [] = some [] := by
  cases fuel <;> rfl

theorem transformGoF_succ (det : List String) (fuel : Nat) (c : Char) (cs' : List Char) :
    transformGoF det (fuel + 1) (c :: cs') =
      match bestmatch det (c :: cs') with
      | none => none
      | some s =>
        if s.length = 0 then none
        else (transformGoF det fuel ((c :: cs').drop s.length)).map
          (fun out => s :: out) := rfl

theorem transformGoF_irrel (det : List String) :
    ∀ (fuel fuel' : Nat) (cs : List Char), cs.length ≤ fuel → cs.length ≤ fuel' →
      transformGoF det fuel cs = transformGoF det fuel' cs := by
  intro fuel
  induction fuel with
  | zero =>
      intro fuel' cs hk _
      have : cs = [] := List.eq_nil_of_length_eq_zero (Nat.le_zero.mp hk)
      subst this
      rw [transformGoF_nil, transformGoF_nil]
  | succ fz ih =>
      intro fuel' cs hk hk'
      cases cs with
      | nil => rw [transformGoF_nil, transformGoF_nil]
      | cons c cs' =>
          cases fuel' with
          | zero => simp at hk'
          | succ fz' =>
              rw [transformGoF_succ, transformGoF_succ]
              cases hb : bestmatch det (c :: cs') with
              | none => rfl
              | some s =>
                  by_cases hs : s.length = 0
                  · simp [hs]
                  · simp only [if_neg hs]
                    have hlen : ((c :: cs').drop s.length).length ≤ fz := by
                      simp only [List.length_drop, List.length_cons] at hk ⊢
                      omega
                    have hlen' : ((c :: cs').drop s.length).length ≤ fz' := by
                      simp only [List.length_drop, List.length_cons] at hk' ⊢
                      omega
                    rw [ih fz' ((c :: cs').drop s.length) hlen hlen']

theorem bestmatch_mem {det : List String} {cs : List Char} {s : String}
    (h : bestmatch det cs = some s) :
    s ∈ det ∧ s.data.isPrefixOf cs = true := by
  have h' : det.find? (fun t => t.data.isPrefixOf cs) = some s := h
  exact ⟨List.mem_of_find?_eq_some h', by simpa using List.find?_some h'⟩

theorem bestmatch_none {det : List String} {cs : List Char}
    (h : bestmatch det cs = none) :
    ∀ s ∈ det, ¬ s.data.isPrefixOf cs = true := by
  intro s hs
  have := List.find?_eq_none.mp h s hs
  simpa using this

/-- On a length-sorted detector the first match is a longest match. -/
theorem bestmatch_maximal :
    ∀ (det : List String), lenSorted det → ∀ {cs : List Char} {s : String},
      bestmatch det cs = some s →
      ∀ t ∈ det, t.data.isPrefixOf cs = true → t.length ≤ s.length := by
  intro det
  induction det with
  | nil =>
      intro _ cs s h
      simp [bestmatch] at h
  | cons a d ih =>
      intro hsort cs s h t ht htpre
      obtain ⟨ha, hd⟩ := List.pairwise_cons.mp hsort
      by_cases hp : a.data.isPrefixOf cs = true
      · have : bestmatch (a :: d) cs = some a := List.find?_cons_of_pos d hp
        rw [this] at h
        have hsa : s = a := (Option.some.inj h).symm
        subst hsa
        rcases List.mem_cons.mp ht with h2 | h2
        · rw [h2]
        · exact ha t h2
      · have : bestmatch (a :: d) cs = bestmatch d cs :=
          List.find?_cons_of_neg d (by simpa using hp)
        rw [this] at h
        rcases List.mem_cons.mp ht with h2 | h2
        · exact absurd (h2 ▸ htpre) hp
        · exact ih hd h t h2 htpre

theorem strlen_data (s : String) : s.length = s.data.length := rfl

theorem prefix_eq_of_length {s t : String} {cs : List Char}
    (hs : s.data.isPrefixOf cs = true) (ht : t.data.isPrefixOf cs = true)
    (hlen : s.length = t.length) : s = t := by
  have hs' : s.data <+: cs := by simpa using hs
  have ht' : t.data <+: cs := by simpa using ht
  have h1 : s.data = cs.take s.data.length := List.prefix_iff_eq_take.mp hs'
  have h2 : t.data = cs.take t.data.length := List.prefix_iff_eq_take.mp ht'
  have hdata : s.data = t.data := by
    rw [h1, h2, ← strlen_data, ← strlen_data, hlen]
  exact congrArg String.mk hdata

/-- The first match on a length-sorted detector depends only on the symbol
set: two sorted detectors with the same members agree everywhere. -/
theorem bestmatch_ext {d₁ d₂ : List String} (h₁ : lenSorted d₁) (h₂ : lenSorted d₂)
    (hmem : ∀ s, s ∈ d₁ ↔ s ∈ d₂) (cs : List Char) :
    bestmatch d₁ cs = bestmatch d₂ cs := by
  cases hb1 : bestmatch d₁ cs with
  | none =>
      cases hb2 : bestmatch d₂ cs with
      | none => rfl
      | some t =>
          obtain ⟨htmem, htpre⟩ := bestmatch_mem hb2
          exact absurd htpre (bestmatch_none hb1 t ((hmem t).mpr htmem))
  | some s =>
      obtain ⟨hsmem, hspre⟩ := bestmatch_mem hb1
      cases hb2 : bestmatch d₂ cs with
      | none => exact absurd hspre (bestmatch_none hb2 s ((hmem s).mp hsmem))
      | some t =>
          obtain ⟨htmem, htpre⟩ := bestmatch_mem hb2
          have hst : s.length ≤ t.length :=
            bestmatch_maximal d₂ h₂ hb2 s ((hmem s).mp hsmem) hspre
          have hts : t.length ≤ s.length :=
            bestmatch_maximal d₁ h₁ hb1 t ((hmem t).mpr htmem) htpre
          rw [prefix_eq_of_length hspre htpre (le_antisymm hst hts)]

theorem transformGoF_ext {d₁ d₂ : List String} (h₁ : lenSorted d₁) (h₂ : lenSorted d₂)
    (hmem : ∀ s, s ∈ d₁ ↔ s ∈ d₂) :
    ∀ (fuel : Nat) (cs : List Char),
      transformGoF d₁ fuel cs = transformGoF d₂ fuel cs := by
  intro fuel
  induction fuel with
  | zero =>
      intro cs
      cases cs <;> rfl
  | succ fz ih =>
      intro cs
      cases cs with
      | nil => rfl
      | cons c cs' =>
          rw [transformGoF_succ, transformGoF_succ,
            bestmatch_ext h₁ h₂ hmem (c :: cs')]
          cases bestmatch d₂ (c :: cs') with
          | none => rfl
          | some s =>
              by_cases hs : s.length = 0
              · simp [hs]
              · simp only [if_neg hs]
                rw [ih ((c :: cs').drop s.length)]

/-! ## The compiled detector is length-sorted with the same members -/

theorem mem_insBy {le : α → α → Bool} (x a : α) :
    ∀ (l : List α), a ∈ insBy le x l ↔ a = x ∨ a ∈ l := by
  intro l
  induction l with
  | nil => simp [insBy]
  | cons y t ih =>
      by_cases h : le x y = true
      · simp [insBy, h, List.mem_cons]
      · simp only [insBy, if_neg h, List.mem_cons, ih]
        tauto

theorem mem_sortBy {le : α → α → Bool} (a : α) :
    ∀ (l : List α), a ∈ sortBy le l ↔ a ∈ l := by
  intro l
  induction l with
  | nil => simp [sortBy]
  | cons y t ih =>
      simp [sortBy, mem_insBy, ih]

theorem lenSorted_insBy (x : String) :
    ∀ (l : List String), lenSorted l →
      lenSorted (insBy (fun a b => decide (b.length ≤ a.length)) x l) := by
  intro l
  induction l with
  | nil => intro _; simp [insBy, lenSorted]
  | cons y t ih =>
      intro hsort
      obtain ⟨hy, ht⟩ := List.pairwise_cons.mp hsort
      by_cases h : decide (y.length ≤ x.length) = true
      · rw [show insBy (fun a b => decide (b.length ≤ a.length)) x (y :: t) =
          x :: y :: t by simp [insBy, h]]
        refine List.pairwise_cons.mpr ⟨?_, hsort⟩
        intro b hb
        have hyx : y.length ≤ x.length := of_decide_eq_true h
        rcases List.mem_cons.mp hb with h2 | h2
        · rw [h2]
          omega
        · have := hy b h2
          omega
      · rw [show insBy (fun a b => decide (b.length ≤ a.length)) x (y :: t) =
          y :: insBy (fun a b => decide (b.length ≤ a.length)) x t by simp [insBy, h]]
        refine List.pairwise_cons.mpr ⟨?_, ih ht⟩
        intro b hb
        rcases (mem_insBy x b t).mp hb with h2 | h2
        · have hxy : ¬ y.length ≤ x.length := by simpa using h
          rw [h2]
          omega
        · exact hy b h2

theorem lenSorted_sortBy :
    ∀ (l : List String),
      lenSorted (sortBy (fun a b => decide (b.length ≤ a.length)) l) := by
  intro l
  induction l with
  | nil => simp [sortBy, lenSorted]
  | cons y t ih => exact lenSorted_insBy y _ ih

theorem compile_sorted (syms : List String) : lenSorted (compile syms) :=
  lenSorted_sortBy syms

theorem compile_mem (syms : List String) (s : String) :
    s ∈ compile syms ↔ s ∈ syms :=
  mem_sortBy s syms

/-! ## Round-trip of the scanner -/

theorem singleton_data (c : Char) : (String.singleton c).data = [c] := rfl

theorem singleton_length (c : Char) : (String.singleton c).length = 1 := rfl

/-- If every character of the text is itself a symbol of the (length-sorted)
detector, the scan succeeds and its tokens concatenate back to the text. -/
theorem transformGoF_roundtrip {det : List String} (hd : lenSorted det) :
    ∀ (fuel : Nat) (cs : List Char), cs.length ≤ fuel →
      (∀ c ∈ cs, String.singleton c ∈ det) →
      ∃ out, transformGoF det fuel cs = some out ∧
        (out.map String.data).flatten = cs := by
  intro fuel
  induction fuel with
  | zero =>
      intro cs hk _
      have : cs = [] := List.eq_nil_of_length_eq_zero (Nat.le_zero.mp hk)
      subst this
      exact ⟨[], transformGoF_nil det 0, rfl⟩
  | succ fz ih =>
      intro cs hk hchars
      cases cs with
      | nil => exact ⟨[], transformGoF_nil det (fz + 1), rfl⟩
      | cons c cs' =>
          have hc : String.singleton c ∈ det := hchars c (by simp)
          have hcpre : (String.singleton c).data.isPrefixOf (c :: cs') = true := by
            rw [singleton_data]
            simp [List.isPrefixOf]
          cases hb : bestmatch det (c :: cs') with
          | none => exact absurd hcpre (bestmatch_none hb (String.singleton c) hc)
          | some s =>
              obtain ⟨hsmem, hspre⟩ := bestmatch_mem hb
              have hs1 : 1 ≤ s.length := by
                have := bestmatch_maximal det hd hb (String.singleton c) hc hcpre
                rw [singleton_length] at this
                exact this
              have hspre' : s.data <+: (c :: cs') := by simpa using hspre
              obtain ⟨t, ht⟩ := hspre'
              have hdrop : (c :: cs').drop s.length = t := by
                rw [← ht, strlen_data, List.drop_left]
              have hlent : t.length ≤ fz := by
                have hlens := congrArg List.length ht
                simp only [List.length_append, List.length_cons] at hlens
                simp only [List.length_cons] at hk
                rw [strlen_data] at hs1
                omega
              have hcharst : ∀ c' ∈ t, String.singleton c' ∈ det := by
                intro c' hc'
                exact hchars c' (by rw [← ht]; exact List.mem_append_right _ hc')
              obtain ⟨out', hout', hflat⟩ := ih t hlent hcharst
              refine ⟨s :: out', ?_, ?_⟩
              · rw [transformGoF_succ, hb]
                show (if s.length = 0 then none
                  else (transformGoF det fz ((c :: cs').drop s.length)).map
                    (fun out => s :: out)) = some (s :: out')
                rw [if_neg (by omega), hdrop, hout']
                rfl
              · show s.data ++ (out'.map String.data).flatten = c :: cs'
                rw [hflat, ht]

/-! ## Failure at unmatched positions (C3) -/

theorem bestmatch_nil_none (det : List String) : bestmatch det [] = none ∨
    ∃ s, bestmatch det [] = some s ∧ s.data = [] := by
  cases hb : bestmatch det [] with
  | none => exact Or.inl rfl
  | some s =>
      refine Or.inr ⟨s, rfl, ?_⟩
      have := (bestmatch_mem hb).2
      cases hd : s.data with
      | nil => rfl
      | cons c t =>
          rw [hd] at this
          simp [List.isPrefixOf] at this

/-- C3 (amended): when the scan of `SubwordTokenizer.transform` reaches a
position where no vocabulary symbol matches a prefix of the remaining text,
`transform` fails (the source raises `TypeError` on `len(None)`) instead of
dropping the character and continuing. -/
theorem c3_unmatched_position_fails :
    ∀ (det : List String) (text : String) (rest : List Char),
      ScanReaches det text.data rest → rest ≠ [] → bestmatch det rest = none →
      swTransform det text = none := by
  have main : ∀ (det : List String) (cs rest : List Char),
      ScanReaches det cs rest → rest ≠ [] → bestmatch det rest = none →
      transformGoF det cs.length cs = none := by
    intro det cs rest hreach
    induction hreach with
    | refl cs =>
        intro hne hb
        cases cs with
        | nil => exact absurd rfl hne
        | cons c cs' =>
            rw [show (c :: cs').length = cs'.length + 1 from rfl,
              transformGoF_succ, hb]
    | step s hb hs _ ih =>
        intro hne hbrest
        rename_i cs rest hreach'
        cases cs with
        | nil =>
            have : bestmatch det [] = some s := hb
            have h0 := (bestmatch_mem this).2
            cases hd : s.data with
            | nil =>
                have : s.length = 0 := by rw [strlen_data, hd]; rfl
                exact absurd this hs
            | cons c t =>
                rw [hd] at h0
                simp [List.isPrefixOf] at h0
        | cons c cs' =>
            rw [show (c :: cs').length = cs'.length + 1 from rfl,
              transformGoF_succ, hb]
            show (if s.length = 0 then none
              else (transformGoF det cs'.length ((c :: cs').drop s.length)).map
                (fun out => s :: out)) = none
            rw [if_neg hs]
            have hirr : transformGoF det cs'.length ((c :: cs').drop s.length) =
                transformGoF det ((c :: cs').drop s.length).length
                  ((c :: cs').drop s.length) := by
              apply transformGoF_irrel
              · simp only [List.length_drop, List.length_cons]
                omega
              · exact le_rfl
            rw [hirr, ih hne hbrest]
            rfl
  intro det text rest hreach hne hb
  exact main det text.data rest hreach hne hb

/-- C3 counterexample: a trained `SubwordsListTokenizer` recognizing only
`"a"`, applied to `"xa"`: the claim predicts the unknown character `'x'` is
dropped and the result is `["a"]`; the code instead fails (`TypeError` from
`len(None)`), modelled as `none`. -/
theorem c3_drop_counterexample :
    swTransform (compile (swlFit [] ["a"])) "xa" = none := by decide

theorem c3_unmatched_position_fails_witness :
    swTransform (compile (swlFit [] ["a"])) "ax" = none := by
  apply c3_unmatched_position_fails (compile (swlFit [] ["a"])) "ax" (String.data "x")
  · exact ScanReaches.step "a" (by decide) (by decide)
      (ScanReaches.refl (String.data "x"))
  · simp
  · decide

/-! ## The matcher is a function of the symbol set (C10) -/

/-- C10: the compiled matcher of a trained subword tokenizer behaves as a
function of the Symbol Set alone: `compile` always yields a length-sorted
detector with exactly the set's members, and any two length-sorted detectors
with the same members produce identical `transform` output on every text —
the alternation order among equal-length symbols can never change the match,
because two distinct symbols of equal length cannot both be a prefix of the
text at the same position. -/
theorem c10_transform_set_determined :
    (∀ (syms : List String), lenSorted (compile syms) ∧
        ∀ s, (s ∈ compile syms ↔ s ∈ syms)) ∧
    (∀ (d₁ d₂ : List String), lenSorted d₁ → lenSorted d₂ →
        (∀ s, s ∈ d₁ ↔ s ∈ d₂) → ∀ (text : String),
        swTransform d₁ text = swTransform d₂ text) := by
  constructor
  · intro syms
    exact ⟨compile_sorted syms, fun s => compile_mem syms s⟩
  · intro d₁ d₂ h₁ h₂ hmem text
    show transformGoF d₁ text.data.length text.data =
      transformGoF d₂ text.data.length text.data
    exact transformGoF_ext h₁ h₂ hmem text.data.length text.data

theorem c10_transform_set_determined_witness :
    swTransform ["aa", "ab", "a"] "aab" = swTransform ["ab", "aa", "a"] "aab" := by
  refine c10_transform_set_determined.2 ["aa", "ab", "a"] ["ab", "aa", "a"]
    (by unfold lenSorted; decide) (by unfold lenSorted; decide) ?_ "aab"
  intro s
  simp only [List.mem_cons, List.not_mem_nil, or_false]
  tauto

/-! ## Lemmas on the Python-set model -/

theorem mem_setInsert (s x : String) (l : List String) :
    s ∈ setInsert l x ↔ s ∈ l ∨ s = x := by
  unfold setInsert
  by_cases h : x ∈ l
  · rw [if_pos h]
    constructor
    · exact Or.inl
    · rintro (h1 | h1)
      · exact h1
      · exact h1 ▸ h
  · rw [if_neg h]
    simp

theorem length_setInsert_le (l : List String) (x : String) :
    (setInsert l x).length ≤ l.length + 1 := by
  unfold setInsert
  by_cases h : x ∈ l
  · rw [if_pos h]
    omega
  · rw [if_neg h]
    simp

theorem mem_foldl_setInsert :
    ∀ (xs acc : List String) (s : String),
      s ∈ acc ∨ s ∈ xs → s ∈ xs.foldl setInsert acc := by
  intro xs
  induction xs with
  | nil =>
      intro acc s h
      rcases h with h | h
      · exact h
      · simp at h
  | cons x t ih =>
      intro acc s h
      show s ∈ t.foldl setInsert (setInsert acc x)
      rcases h with h | h
      · exact ih (setInsert acc x) s (Or.inl ((mem_setInsert s x acc).mpr (Or.inl h)))
      · rcases List.mem_cons.mp h with h2 | h2
        · exact ih (setInsert acc x) s
            (Or.inl ((mem_setInsert s x acc).mpr (Or.inr h2)))
        · exact ih (setInsert acc x) s (Or.inr h2)

theorem mem_foldl_setInsert_inv :
    ∀ (xs acc : List String) (s : String),
      s ∈ xs.foldl setInsert acc → s ∈ acc ∨ s ∈ xs := by
  intro xs
  induction xs with
  | nil =>
      intro acc s h
      exact Or.inl h
  | cons x t ih =>
      intro acc s h
      rcases ih (setInsert acc x) s h with h2 | h2
      · rcases (mem_setInsert s x acc).mp h2 with h3 | h3
        · exact Or.inl h3
        · exact Or.inr (by simp [h3])
      · exact Or.inr (List.mem_cons_of_mem x h2)

theorem length_foldl_setInsert_le :
    ∀ (xs acc : List String), (xs.foldl setInsert acc).length ≤ acc.length + xs.length := by
  intro xs
  induction xs with
  | nil => intro acc; simp
  | cons x t ih =>
      intro acc
      show (t.foldl setInsert (setInsert acc x)).length ≤ _
      have h1 := ih (setInsert acc x)
      have h2 := length_setInsert_le acc x
      simp only [List.length_cons]
      omega

theorem mem_setUnion_left {s : String} {a : List String} (xs : List String)
    (h : s ∈ a) : s ∈ setUnion a xs :=
  mem_foldl_setInsert xs a s (Or.inl h)

theorem mem_setUnion_right {s : String} (a : List String) {xs : List String}
    (h : s ∈ xs) : s ∈ setUnion a xs :=
  mem_foldl_setInsert xs a s (Or.inr h)

theorem length_setUnion_le (a xs : List String) :
    (setUnion a xs).length ≤ a.length + xs.length :=
  length_foldl_setInsert_le xs a

theorem mem_charSyms_of {corpus : List String} {d : String} {c : Char}
    (hd : d ∈ corpus) (hc : c ∈ d.data) :
    String.singleton c ∈ charSyms (corpus.map toDoc) := by
  apply mem_foldl_setInsert
  right
  apply List.mem_flatten.mpr
  refine ⟨toDoc d, List.mem_map_of_mem toDoc hd, ?_⟩
  exact List.mem_map_of_mem (fun c => String.singleton c) hc

theorem charSyms_len1 {corpus : List String} {s : String}
    (h : s ∈ charSyms (corpus.map toDoc)) : s.length = 1 := by
  rcases mem_foldl_setInsert_inv _ [] s h with h2 | h2
  · simp at h2
  · obtain ⟨l, hl, hsl⟩ := List.mem_flatten.mp h2
    obtain ⟨d, _, hd⟩ := List.mem_map.mp hl
    rw [← hd] at hsl
    obtain ⟨c, _, hc⟩ := List.mem_map.mp hsl
    rw [← hc]
    exact singleton_length c

/-! ## Symbol-set facts through the training loops -/

theorem prunesymbols_mem {mf : Int} {corpus : List (List String)}
    {symbols : List String} {s : String} (h : s ∈ prunesymbols mf corpus symbols) :
    s ∈ symbols :=
  (List.mem_filter.mp h).1

theorem prunesymbols_keeps_len1 {mf : Int} {corpus : List (List String)}
    {symbols : List String} {s : String} (h1 : s.length = 1) (h2 : s ∈ symbols) :
    s ∈ prunesymbols mf corpus symbols := by
  apply List.mem_filter.mpr
  exact ⟨h2, by simp [h1]⟩

theorem prunesymbols_length_le (mf : Int) (corpus : List (List String))
    (symbols : List String) :
    (prunesymbols mf corpus symbols).length ≤ symbols.length :=
  List.length_filter_le _ symbols

theorem mergingrun_symbols_mono {n : Nat} {mf : Int} {cw : Bool} :
    ∀ (fuel : Nat) (corpus : List (List String)) (f : Freqs) (symbols : List String)
      (out : List (List String) × Freqs × List String),
      mergingrun n mf cw fuel corpus f symbols = some out →
      ∀ s ∈ symbols, s ∈ out.2.2 := by
  intro fuel
  induction fuel with
  | zero =>
      intro corpus f symbols out h
      exact absurd h (by simp [mergingrun])
  | succ fz ih =>
      intro corpus f symbols out h s hs
      rw [mergingrun_succ] at h
      by_cases hlen : symbols.length < n
      · rw [if_pos hlen] at h
        cases hsel : argmaxKey f with
        | none =>
            rw [hsel] at h
            exact absurd h (by simp)
        | some p =>
            obtain ⟨l, r⟩ := p
            rw [hsel] at h
            have h : (if lookupD f (l, r) < mf then some (corpus, f, symbols)
                else mergingrun n mf cw fz (mergesymbols cw corpus symbols f l r).1
                  (mergesymbols cw corpus symbols f l r).2.1
                  (mergesymbols cw corpus symbols f l r).2.2) = some out := h
            by_cases hlt : lookupD f (l, r) < mf
            · rw [if_pos hlt] at h
              have := Option.some.inj h
              rw [← this]
              exact hs
            · rw [if_neg hlt] at h
              apply ih _ _ _ _ h
              show s ∈ setInsert symbols (l ++ r)
              exact (mem_setInsert s (l ++ r) symbols).mpr (Or.inl hs)
      · rw [if_neg hlen] at h
        have := Option.some.inj h
        rw [← this]
        exact hs

theorem mergingrun_symbols_card {n : Nat} {mf : Int} {cw : Bool} :
    ∀ (fuel : Nat) (corpus : List (List String)) (f : Freqs) (symbols : List String)
      (out : List (List String) × Freqs × List String),
      symbols.length ≤ n →
      mergingrun n mf cw fuel corpus f symbols = some out →
      out.2.2.length ≤ n := by
  intro fuel
  induction fuel with
  | zero =>
      intro corpus f symbols out _ h
      exact absurd h (by simp [mergingrun])
  | succ fz ih =>
      intro corpus f symbols out hcard h
      rw [mergingrun_succ] at h
      by_cases hlen : symbols.length < n
      · rw [if_pos hlen] at h
        cases hsel : argmaxKey f with
        | none =>
            rw [hsel] at h
            exact absurd h (by simp)
        | some p =>
            obtain ⟨l, r⟩ := p
            rw [hsel] at h
            have h : (if lookupD f (l, r) < mf then some (corpus, f, symbols)
                else mergingrun n mf cw fz (mergesymbols cw corpus symbols f l r).1
                  (mergesymbols cw corpus symbols f l r).2.1
                  (mergesymbols cw corpus symbols f l r).2.2) = some out := h
            by_cases hlt : lookupD f (l, r) < mf
            · rw [if_pos hlt] at h
              have := Option.some.inj h
              rw [← this]
              exact hcard
            · rw [if_neg hlt] at h
              apply ih _ _ _ _ _ h
              show (setInsert symbols (l ++ r)).length ≤ n
              have := length_setInsert_le symbols (l ++ r)
              omega
      · rw [if_neg hlen] at h
        have := Option.some.inj h
        rw [← this]
        exact hcard

theorem bpeFitLoop_chars {n : Nat} {mf : Int} {cw : Bool} {chars0 : List String} :
    ∀ (fuel : Nat) (corpus : List (List String)) (f : Freqs) (symbols : List String)
      (S : List String),
      (∀ s ∈ chars0, s ∈ symbols) → (∀ s ∈ chars0, s.length = 1) →
      bpeFitLoop n mf cw fuel corpus f symbols = some S →
      ∀ s ∈ chars0, s ∈ S := by
  intro fuel
  induction fuel with
  | zero =>
      intro corpus f symbols S _ _ h
      exact absurd h (by simp [bpeFitLoop])
  | succ fz ih =>
      intro corpus f symbols S hsub hlen1 h s hs
      have h : (match mergingrun n mf cw (3 * corpusSize corpus + f.length + n + 2)
          corpus f symbols with
        | none => none
        | some (c', f', s') =>
          if s'.length = (prunesymbols mf c' s').length then
            some (prunesymbols mf c' s')
          else bpeFitLoop n mf cw fz c' f' (prunesymbols mf c' s')) = some S := h
      cases hmr : mergingrun n mf cw (3 * corpusSize corpus + f.length + n + 2)
          corpus f symbols with
      | none =>
          rw [hmr] at h
          exact absurd h (by simp)
      | some trip =>
          obtain ⟨c', f', s'⟩ := trip
          rw [hmr] at h
          have h : (if s'.length = (prunesymbols mf c' s').length then
              some (prunesymbols mf c' s')
              else bpeFitLoop n mf cw fz c' f' (prunesymbols mf c' s')) = some S := h
          have hs' : ∀ t ∈ chars0, t ∈ s' := by
            intro t ht
            exact mergingrun_symbols_mono _ corpus f symbols (c', f', s') hmr t
              (hsub t ht)
          have hprune : ∀ t ∈ chars0, t ∈ prunesymbols mf c' s' := by
            intro t ht
            exact prunesymbols_keeps_len1 (hlen1 t ht) (hs' t ht)
          by_cases heq : s'.length = (prunesymbols mf c' s').length
          · rw [if_pos heq] at h
            have := Option.some.inj h
            rw [← this]
            exact hprune s hs
          · rw [if_neg heq] at h
            exact ih c' f' (prunesymbols mf c' s') S hprune hlen1 h s hs

theorem bpeFitLoop_card {n : Nat} {mf : Int} {cw : Bool} :
    ∀ (fuel : Nat) (corpus : List (List String)) (f : Freqs) (symbols : List String)
      (S : List String),
      symbols.length ≤ n →
      bpeFitLoop n mf cw fuel corpus f symbols = some S →
      S.length ≤ n := by
  intro fuel
  induction fuel with
  | zero =>
      intro corpus f symbols S _ h
      exact absurd h (by simp [bpeFitLoop])
  | succ fz ih =>
      intro corpus f symbols S hcard h
      have h : (match mergingrun n mf cw (3 * corpusSize corpus + f.length + n + 2)
          corpus f symbols with
        | none => none
        | some (c', f', s') =>
          if s'.length = (prunesymbols mf c' s').length then
            some (prunesymbols mf c' s')
          else bpeFitLoop n mf cw fz c' f' (prunesymbols mf c' s')) = some S := h
      cases hmr : mergingrun n mf cw (3 * corpusSize corpus + f.length + n + 2)
          corpus f symbols with
      | none =>
          rw [hmr] at h
          exact absurd h (by simp)
      | some trip =>
          obtain ⟨c', f', s'⟩ := trip
          rw [hmr] at h
          have h : (if s'.length = (prunesymbols mf c' s').length then
              some (prunesymbols mf c' s')
              else bpeFitLoop n mf cw fz c' f' (prunesymbols mf c' s')) = some S := h
          have hs' : s'.length ≤ n :=
            mergingrun_symbols_card _ corpus f symbols (c', f', s') hcard hmr
          have hp : (prunesymbols mf c' s').length ≤ n :=
            le_trans (prunesymbols_length_le mf c' s') hs'
          by_cases heq : s'.length = (prunesymbols mf c' s').length
          · rw [if_pos heq] at h
            have := Option.some.inj h
            rw [← this]
            exact hp
          · rw [if_neg heq] at h
            exact ih c' f' (prunesymbols mf c' s') S hp h

theorem bpeFit_chars {n : Nat} {mf : Int} {cw : Bool} {corpus : List String}
    {S : List String} (h : bpeFit n mf cw corpus = some S) :
    ∀ s ∈ charSyms (corpus.map toDoc), s ∈ S := by
  have h' : bpeFitLoop n mf cw
      ((charSyms (corpus.map toDoc)).length + 3 * corpusSize (corpus.map toDoc) + n + 2)
      (corpus.map toDoc) (pairfreqs cw (corpus.map toDoc))
      (charSyms (corpus.map toDoc)) = some S := h
  exact bpeFitLoop_chars _ _ _ _ S (fun s hs => hs) (fun s hs => charSyms_len1 hs) h'

theorem bpeFit_card {n : Nat} {mf : Int} {cw : Bool} {corpus : List String}
    {S : List String} (hchars : (charSyms (corpus.map toDoc)).length ≤ n)
    (h : bpeFit n mf cw corpus = some S) : S.length ≤ n := by
  have h' : bpeFitLoop n mf cw
      ((charSyms (corpus.map toDoc)).length + 3 * corpusSize (corpus.map toDoc) + n + 2)
      (corpus.map toDoc) (pairfreqs cw (corpus.map toDoc))
      (charSyms (corpus.map toDoc)) = some S := h
  exact bpeFitLoop_card _ _ _ _ S hchars h'

/-! ## Round-trip (C4) -/

theorem data_append (a b : String) : (a ++ b).data = a.data ++ b.data := rfl

theorem joinSyms_data :
    ∀ (l : List String), (joinSyms l).data = (l.map String.data).flatten := by
  intro l
  induction l with
  | nil => rfl
  | cons s t ih =>
      show (s ++ joinSyms t).data = s.data ++ (t.map String.data).flatten
      rw [data_append, ih]

theorem transform_roundtrip_det {det : List String} (hd : lenSorted det)
    (t : String) (hchars : ∀ c ∈ t.data, String.singleton c ∈ det) :
    ∃ out, swTransform det t = some out ∧ joinSyms out = t := by
  obtain ⟨out, hout, hflat⟩ :=
    transformGoF_roundtrip hd t.data.length t.data le_rfl hchars
  refine ⟨out, hout, ?_⟩
  have : (joinSyms out).data = t.data := by rw [joinSyms_data, hflat]
  have h2 := congrArg String.mk this
  exact h2

/-- C4: concatenating the tokens returned by `transform` reproduces the text
exactly, for every text whose characters all occur in the training corpus —
both for a `BPETokenizer` trained by `fit` and for a `SubwordsListTokenizer`
trained by `fit`. -/
theorem c4_transform_roundtrip :
    (∀ (n : Nat) (mf : Int) (cw : Bool) (corpus : List String) (S : List String)
        (t : String),
        bpeFit n mf cw corpus = some S →
        (∀ c ∈ t.data, ∃ d ∈ corpus, c ∈ d.data) →
        ∃ out, swTransform (compile S) t = some out ∧ joinSyms out = t) ∧
    (∀ (subwords : List String) (corpus : List String) (t : String),
        (∀ c ∈ t.data, ∃ d ∈ corpus, c ∈ d.data) →
        ∃ out, swTransform (compile (swlFit subwords corpus)) t = some out ∧
          joinSyms out = t) := by
  constructor
  · intro n mf cw corpus S t hfit hchars
    apply transform_roundtrip_det (compile_sorted S) t
    intro c hc
    obtain ⟨d, hd, hcd⟩ := hchars c hc
    apply (compile_mem S (String.singleton c)).mpr
    exact bpeFit_chars hfit (String.singleton c) (mem_charSyms_of hd hcd)
  · intro subwords corpus t hchars
    apply transform_roundtrip_det (compile_sorted (swlFit subwords corpus)) t
    intro c hc
    obtain ⟨d, hd, hcd⟩ := hchars c hc
    apply (compile_mem _ (String.singleton c)).mpr
    exact mem_setUnion_left subwords (mem_charSyms_of hd hcd)

theorem c4_transform_roundtrip_witness :
    (∃ out, swTransform (compile ["a", "b"]) "ab" = some out ∧ joinSyms out = "ab") ∧
    (∃ out, swTransform (compile (swlFit ["the"] ["ab"])) "ba" = some out ∧
      joinSyms out = "ba") := by
  constructor
  · apply c4_transform_roundtrip.1 4096 10 false ["abab"] ["a", "b"] "ab" (by decide)
    intro c hc
    refine ⟨"abab", by decide, ?_⟩
    fin_cases hc <;> decide
  · apply c4_transform_roundtrip.2 ["the"] ["ab"] "ba"
    intro c hc
    refine ⟨"ab", by decide, ?_⟩
    fin_cases hc <;> decide

/-! ## Character coverage of the Symbol Set (C5) -/

/-- C5: after `fit`, every distinct character of every corpus document is in
the Symbol Set — for `WordTokenizer`, for `BPETokenizer` (whenever `fit`
completes), and for `SubwordsListTokenizer` — and no `prunesymbols` pass ever
removes a single-character symbol. -/
theorem c5_chars_covered :
    (∀ (n : Nat) (mf : Int) (corpus : List String) (d : String) (c : Char),
        d ∈ corpus → c ∈ d.data → String.singleton c ∈ wordFit n mf corpus) ∧
    (∀ (n : Nat) (mf : Int) (cw : Bool) (corpus : List String) (S : List String)
        (d : String) (c : Char),
        bpeFit n mf cw corpus = some S → d ∈ corpus → c ∈ d.data →
        String.singleton c ∈ S) ∧
    (∀ (subwords : List String) (corpus : List String) (d : String) (c : Char),
        d ∈ corpus → c ∈ d.data →
        String.singleton c ∈ swlFit subwords corpus) ∧
    (∀ (mf : Int) (corpus : List (List String)) (symbols : List String) (s : String),
        s.length = 1 → s ∈ symbols → s ∈ prunesymbols mf corpus symbols) := by
  refine ⟨?_, ?_, ?_, ?_⟩
  · intro n mf corpus d c hd hc
    exact mem_setUnion_left _ (mem_charSyms_of hd hc)
  · intro n mf cw corpus S d c hfit hd hc
    exact bpeFit_chars hfit (String.singleton c) (mem_charSyms_of hd hc)
  · intro subwords corpus d c hd hc
    exact mem_setUnion_left subwords (mem_charSyms_of hd hc)
  · intro mf corpus symbols s h1 h2
    exact prunesymbols_keeps_len1 h1 h2

theorem c5_chars_covered_witness :
    String.singleton 'a' ∈ wordFit 4096 2 ["ab"] ∧
    String.singleton 'b' ∈ (["a", "b"] : List String) ∧
    String.singleton 'a' ∈ swlFit ["the"] ["ab"] ∧
    "a" ∈ prunesymbols 10 [] ["a"] := by
  refine ⟨?_, ?_, ?_, ?_⟩
  · exact c5_chars_covered.1 4096 2 ["ab"] "ab" 'a' (by decide) (by decide)
  · exact c5_chars_covered.2.1 4096 10 false ["abab"] ["a", "b"] "abab" 'b'
      (by decide) (by decide) (by decide)
  · exact c5_chars_covered.2.2.1 ["the"] ["ab"] "ab" 'a' (by decide) (by decide)
  · exact c5_chars_covered.2.2.2 10 [] ["a"] "a" (by decide) (by decide)

/-! ## Vocabulary budget (C6) -/

theorem length_pyTake_le {α : Type} (xs : List α) {k : Int} (hk : 0 ≤ k) :
    (pyTake xs k).length ≤ k.toNat := by
  unfold pyTake
  rw [if_pos hk]
  simp [List.length_take]

theorem length_setUnion_pyTake {a xs : List String} {n : Nat} (h : a.length ≤ n) :
    (setUnion a (pyTake xs ((n : Int) - (a.length : Int)))).length ≤ n := by
  have h0 : (0 : Int) ≤ (n : Int) - (a.length : Int) := by
    have : (a.length : Int) ≤ (n : Int) := by exact_mod_cast h
    omega
  have h1 := length_setUnion_le a (pyTake xs ((n : Int) - (a.length : Int)))
  have h2 := length_pyTake_le xs h0
  have h3 : ((n : Int) - (a.length : Int)).toNat = n - a.length := by omega
  omega

/-- C6 counterexample: with `numsymbols = 1` on the corpus `["abc"]`,
`WordTokenizer.fit` leaves 3 symbols (all corpus characters are always added
first), violating `|SymbolSet| <= numsymbols`. -/
theorem c6_budget_counterexample : ¬ ((wordFit 1 2 ["abc"]).length ≤ 1) := by decide

/-- C6 (amended): `|SymbolSet| ≤ numsymbols` after `fit` holds for
`WordTokenizer` and `BPETokenizer` provided the corpus has at most
`numsymbols` distinct characters — the character set is always installed
first and is never pruned, so with more distinct characters than the budget
the bound fails (see the counterexample). -/
theorem c6_budget_amended :
    (∀ (n : Nat) (mf : Int) (corpus : List String),
        (charSyms (corpus.map toDoc)).length ≤ n →
        (wordFit n mf corpus).length ≤ n) ∧
    (∀ (n : Nat) (mf : Int) (cw : Bool) (corpus : List String) (S : List String),
        (charSyms (corpus.map toDoc)).length ≤ n →
        bpeFit n mf cw corpus = some S → S.length ≤ n) := by
  constructor
  · intro n mf corpus h
    unfold wordFit
    exact length_setUnion_pyTake h
  · intro n mf cw corpus S h hfit
    exact bpeFit_card h hfit

theorem c6_budget_amended_witness :
    (wordFit 4096 2 ["abc"]).length ≤ 4096 ∧
    (["a", "b"] : List String).length ≤ 4096 := by
  constructor
  · exact c6_budget_amended.1 4096 2 ["abc"] (by decide)
  · exact c6_budget_amended.2 4096 10 false ["abab"] ["a", "b"] (by decide) (by decide)

/-! ## Empty corpus (C7) -/

/-- C7 counterexample: `BPETokenizer.fit` on the empty corpus does not
complete: the first merging run calls `max` on an empty pair table, which
raises `ValueError` (modelled as `none`), instead of finishing with an empty
Symbol Set. -/
theorem c7_empty_corpus_counterexample : bpeFit 4096 10 false [] = none := by decide

/-- C7 (amended): for every positive `numsymbols`, `BPETokenizer.fit` applied
to the empty corpus fails (the `ValueError` of `max` over the empty pair
frequency table inside `mergingrun`); no Symbol Set is produced. -/
theorem c7_empty_corpus_fails (n : Nat) (mf : Int) (cw : Bool) (hn : 0 < n) :
    bpeFit n mf cw [] = none := by
  have hmr : ∀ fz, mergingrun n mf cw (fz + 1) [] [] [] = none := by
    intro fz
    rw [mergingrun_succ, if_pos (by simpa using hn)]
    rfl
  have hloop : ∀ fz, bpeFitLoop n mf cw (fz + 1) [] [] [] = none := by
    intro fz
    show (match mergingrun n mf cw (3 * corpusSize [] + List.length ([] : Freqs) + n + 2)
        [] [] [] with
      | none => none
      | some (c', f', s') =>
        if s'.length = (prunesymbols mf c' s').length then
          some (prunesymbols mf c' s')
        else bpeFitLoop n mf cw fz c' f' (prunesymbols mf c' s')) = none
    rw [show 3 * corpusSize ([] : List (List String)) + List.length ([] : Freqs) + n + 2 =
      (n + 1) + 1 by simp [corpusSize]]
    rw [hmr (n + 1)]
  show bpeFitLoop n mf cw
    ((charSyms (List.map toDoc [])).length + 3 * corpusSize (List.map toDoc []) + n + 2)
    (List.map toDoc []) (pairfreqs cw (List.map toDoc []))
    (charSyms (List.map toDoc [])) = none
  rw [show (charSyms (List.map toDoc ([] : List String))).length +
      3 * corpusSize (List.map toDoc ([] : List String)) + n + 2 = (n + 1) + 1 by
    simp [charSyms, corpusSize]]
  exact hloop (n + 1)

theorem c7_empty_corpus_fails_witness : bpeFit 7 10 true [] = none :=
  c7_empty_corpus_fails 7 10 true (by decide)

/-! ## Untrained transform (C8) -/

/-- C8 counterexample: `transform` on a never-fitted subword tokenizer with
the empty text returns `[]` without any error — the `while` loop body never
runs, so the not-trained check inside `bestmatch` is never reached. -/
theorem c8_untrained_counterexample : stTransform none "" = Except.ok [] := rfl

/-- C8 (amended): on every nonempty text, `transform` on a subword tokenizer
whose Symbol Set is undefined fails with the distinguished
`ValueError("Tokenizer has not been fitted")` raised by `bestmatch`. -/
theorem c8_untrained_fails (text : String) (h : text ≠ "") :
    stTransform none text = Except.error "Tokenizer has not been fitted" := by
  show (match text.data with
    | [] => Except.ok []
    | _ :: _ => Except.error "Tokenizer has not been fitted") = _
  cases hd : text.data with
  | nil =>
      exfalso
      apply h
      have := congrArg String.mk hd
      exact this
  | cons c cs' => rfl

theorem c8_untrained_fails_witness :
    stTransform none "x" = Except.error "Tokenizer has not been fitted" :=
  c8_untrained_fails "x" (by decide)

/-! ## Tokenizer equality (C9) -/

/-- C9 counterexample: a trained `WordTokenizer` and a trained `BPETokenizer`
holding the identical Symbol Set compare unequal — each `__eq__` first checks
`isinstance`, and `WordTokenizer` is not a `SubwordTokenizer`. -/
theorem c9_cross_family_counterexample :
    tokEq ⟨TokKind.word, some ["a"]⟩ ⟨TokKind.bpe, some ["a"]⟩ = false ∧
    optSetEq (some ["a"]) (some ["a"]) = true := by decide

/-- C9 (amended): two tokenizer instances compare equal iff they belong to
the same equality family — `CharTokenizer`, `WordTokenizer`, or the subword
family (`BPETokenizer` and `SubwordsListTokenizer` both inherit
`SubwordTokenizer.__eq__`) — and, except for the symbol-less character
tokenizer, their Symbol Sets are equal.  Within the subword family equality
is symbol-set equality regardless of how the vocabulary was learned; across
families (e.g. Word vs BPE) instances are never equal even with identical
Symbol Sets. -/
theorem c9_eq_same_family :
    ∀ (a b : Tok),
      tokEq a b = true ↔
        (fam a.kind = fam b.kind ∧
          (a.kind = TokKind.char ∨ optSetEq a.symbols b.symbols = true)) := by
  intro a b
  obtain ⟨ka, sa⟩ := a
  obtain ⟨kb, sb⟩ := b
  cases ka <;> cases kb <;> simp [tokEq, fam]
